import Mathlib

/-!
Verification development for the union-type algebra and loop-scope model of a
flow-sensitive static analyzer (`src/ty/union.rs`, `src/nodes/stmt/while_statement.rs`).

Modelling conventions (shallow embedding):
* Arena references (`&'a T`) are replaced by the referenced values themselves.
* `FxHashSet` is modelled as an insertion-ordered duplicate-free list: `insert`
  appends the element when it is not already present.  Set iteration order is
  thereby determinized to insertion order (only membership is observable in the
  source's hash sets).
* `Atom` (interned strings) is modelled as `String`, `F64WithEq` as `Int`
  (an opaque literal value with decidable equality), `SymbolId` and the payloads
  of the opaque complex type kinds (`Record`, `Function`, ...) as `Nat` identifiers.
* `Ty::Instance` carries the type that the external resolver
  `Analyzer::unwrap_generic_instance` resolves it to, making the (external)
  resolver's answer part of the value.
* Rust's `unreachable!` is modelled by `Option`: a function that can hit the
  `unreachable!` arm returns `none` there.
-/

/-- Per-kind widening lattice `LiteralAble<L>` from `src/ty/union.rs`:
`Vacant → Literals(set) → Any`. -/
inductive LiteralAble (L : Type) : Type where
  | vacant : LiteralAble L
  | any : LiteralAble L
  | literals (set : List L) : LiteralAble L
  deriving DecidableEq, Repr

/-- The field record of `UnionType<'a>` from `src/ty/union.rs`, parametric in the
member type so that it can be nested inside `Ty`. -/
@[ext]
structure UnionTypeF (τ : Type) : Type where
  string : LiteralAble String
  number : LiteralAble Int
  bigint : LiteralAble String
  symbol : LiteralAble Nat
  object : Bool
  void : Bool
  null : Bool
  undefined : Bool
  boolean : Bool × Bool
  complex : List τ
  unresolved : List Nat
  deriving DecidableEq, Repr

/-- The `Ty<'a>` tagged union.  `namespace` is a Lean keyword, so that variant is
called `nspace`; `Instance` is called `inst` and carries its resolved type. -/
inductive Ty : Type where
  | never
  | error
  | any
  | unknown
  | object
  | void
  | null
  | undefined
  | string
  | number
  | bigint
  | symbol
  | boolean
  | stringLiteral (s : String)
  | numericLiteral (n : Int)
  | bigintLiteral (s : String)
  | uniqueSymbol (id : Nat)
  | booleanLiteral (b : Bool)
  | union (u : UnionTypeF Ty)
  | record (id : Nat)
  | function (id : Nat)
  | constructor (id : Nat)
  | interface (id : Nat)
  | intersection (id : Nat)
  | nspace (id : Nat)
  | generic (id : Nat)
  | intrinsic (id : Nat)
  | inst (resolved : Ty)
  | unresolved (id : Nat)
  deriving Repr

/-- Alias: `UnionType<'a>` instantiated at `Ty`. -/
abbrev UnionType := UnionTypeF Ty

mutual

/-- Structural boolean equality on `Ty` (the derive handler does not support this
nested inductive, so it is written by hand and proved lawful below). -/
def Ty.beq : Ty → Ty → Bool
  | .never, b => match b with | .never => true | _ => false
  | .error, b => match b with | .error => true | _ => false
  | .any, b => match b with | .any => true | _ => false
  | .unknown, b => match b with | .unknown => true | _ => false
  | .object, b => match b with | .object => true | _ => false
  | .void, b => match b with | .void => true | _ => false
  | .null, b => match b with | .null => true | _ => false
  | .undefined, b => match b with | .undefined => true | _ => false
  | .string, b => match b with | .string => true | _ => false
  | .number, b => match b with | .number => true | _ => false
  | .bigint, b => match b with | .bigint => true | _ => false
  | .symbol, b => match b with | .symbol => true | _ => false
  | .boolean, b => match b with | .boolean => true | _ => false
  | .stringLiteral s, b => match b with | .stringLiteral t => s == t | _ => false
  | .numericLiteral s, b => match b with | .numericLiteral t => s == t | _ => false
  | .bigintLiteral s, b => match b with | .bigintLiteral t => s == t | _ => false
  | .uniqueSymbol s, b => match b with | .uniqueSymbol t => s == t | _ => false
  | .booleanLiteral s, b => match b with | .booleanLiteral t => s == t | _ => false
  | .union u, b => match b with
    | .union v =>
      u.string == v.string && u.number == v.number && u.bigint == v.bigint &&
      u.symbol == v.symbol && u.object == v.object && u.void == v.void &&
      u.null == v.null && u.undefined == v.undefined && u.boolean == v.boolean &&
      Ty.beqList u.complex v.complex && u.unresolved == v.unresolved
    | _ => false
  | .record s, b => match b with | .record t => s == t | _ => false
  | .function s, b => match b with | .function t => s == t | _ => false
  | .constructor s, b => match b with | .constructor t => s == t | _ => false
  | .interface s, b => match b with | .interface t => s == t | _ => false
  | .intersection s, b => match b with | .intersection t => s == t | _ => false
  | .nspace s, b => match b with | .nspace t => s == t | _ => false
  | .generic s, b => match b with | .generic t => s == t | _ => false
  | .intrinsic s, b => match b with | .intrinsic t => s == t | _ => false
  | .inst r, b => match b with | .inst r' => Ty.beq r r' | _ => false
  | .unresolved s, b => match b with | .unresolved t => s == t | _ => false

/-- Pointwise `Ty.beq` on lists. -/
def Ty.beqList : List Ty → List Ty → Bool
  | [], [] => true
  | a :: l, b :: m => Ty.beq a b && Ty.beqList l m
  | _, _ => false

end

theorem UnionTypeF.sizeOf_complex_lt (u : UnionType) : sizeOf u.complex < sizeOf u := by
  cases u; simp; try omega

/-- Lawfulness: `Ty.beq` and `Ty.beqList` decide propositional equality. -/
theorem Ty.beq_iff_aux (n : Nat) :
    (∀ a b : Ty, sizeOf a ≤ n → (Ty.beq a b = true ↔ a = b)) ∧
    (∀ l m : List Ty, sizeOf l ≤ n → (Ty.beqList l m = true ↔ l = m)) := by
  induction n using Nat.strong_induction_on with
  | _ n ih =>
    constructor
    · intro a b ha
      cases a <;> cases b <;> simp [Ty.beq]
      case union.union u v =>
        obtain ⟨us, un, ub, usy, uo, uv, unu, uu, ubo, uc, uur⟩ := u
        obtain ⟨vs, vn, vb, vsy, vo, vv, vnu, vu, vbo, vc, vur⟩ := v
        have hc : sizeOf uc < n := by
          simp only [Ty.union.sizeOf_spec, UnionTypeF.mk.sizeOf_spec] at ha
          omega
        have := (ih _ (Nat.lt_of_le_of_lt (Nat.le_refl _) hc)).2 uc vc (Nat.le_refl _)
        simp [UnionTypeF.mk.injEq, this]
        tauto
      case inst.inst r r' =>
        have hr : sizeOf r < n := by
          simp only [Ty.inst.sizeOf_spec] at ha
          omega
        exact (ih _ hr).1 r r' (Nat.le_refl _)
    · intro l m hl
      cases l with
      | nil => cases m <;> simp [Ty.beqList]
      | cons a l' =>
        cases m with
        | nil => simp [Ty.beqList]
        | cons b m' =>
          have hal : sizeOf a < n ∧ sizeOf l' < n := by
            simp only [List.cons.sizeOf_spec] at hl
            constructor <;> omega
          have h1 := (ih _ hal.1).1 a b (Nat.le_refl _)
          have h2 := (ih _ hal.2).2 l' m' (Nat.le_refl _)
          simp [Ty.beqList, h1, h2]

theorem Ty.beq_iff (a b : Ty) : Ty.beq a b = true ↔ a = b :=
  (Ty.beq_iff_aux (sizeOf a)).1 a b (Nat.le_refl _)

instance : DecidableEq Ty := fun a b => decidable_of_iff _ (Ty.beq_iff a b)

/-- Insertion into a hash set, modelled as an insertion-ordered duplicate-free
list: append the element when it is not already present. -/
def hinsert {α : Type} [DecidableEq α] (l : List α) (x : α) : List α :=
  if x ∈ l then l else l ++ [x]

/-- Translation of `LiteralAble::add` from `src/ty/union.rs`. -/
def LiteralAble.add {L : Type} [DecidableEq L] : LiteralAble L → L → LiteralAble L
  | .vacant, literal => .literals [literal]
  | .any, _ => .any
  | .literals set, literal => .literals (hinsert set literal)

/-- Translation of `LiteralAble::for_each` from `src/ty/union.rs`, as the list of visited
types: nothing for `Vacant`, the "any of kind" type for `Any`, one constructed
type per literal for `Literals`. -/
def LiteralAble.for_each {L : Type} (la : LiteralAble L) (anyTy : Ty) (ctor : L → Ty) :
    List Ty :=
  match la with
  | .vacant => []
  | .any => [anyTy]
  | .literals set => set.map ctor

/-- The `Default` instance of `UnionType<'a>`. -/
def UnionType.default : UnionType :=
  ⟨.vacant, .vacant, .vacant, .vacant, false, false, false, false, (false, false), [], []⟩

/-- Translation of `UnionType::add` from `src/ty/union.rs`.  The final `unreachable!("Handled in
UnionTypeBuilder")` arm is modelled as `none`. -/
def UnionType.add (u : UnionType) (ty : Ty) : Option UnionType :=
  match ty with
  | .void => some { u with void := true }
  | .null => some { u with null := true }
  | .undefined => some { u with undefined := true }
  | .object => some { u with object := true }
  | .string => some { u with string := .any }
  | .number => some { u with number := .any }
  | .bigint => some { u with bigint := .any }
  | .symbol => some { u with symbol := .any }
  | .boolean => some { u with boolean := (true, true) }
  | .stringLiteral s => some { u with string := u.string.add s }
  | .numericLiteral n => some { u with number := u.number.add n }
  | .bigintLiteral b => some { u with bigint := u.bigint.add b }
  | .uniqueSymbol s => some { u with symbol := u.symbol.add s }
  | .booleanLiteral true => some { u with boolean := (true, u.boolean.2) }
  | .booleanLiteral false => some { u with boolean := (u.boolean.1, true) }
  | .record _ | .function _ | .constructor _ | .interface _ | .nspace _ | .intersection _ =>
    some { u with complex := hinsert u.complex ty }
  | .unresolved unres => some { u with unresolved := u.unresolved ++ [unres] }
  | _ => none

/-- Translation of `UnionType::for_each` from `src/ty/union.rs`, as the list of visited members
in visit order: the four literal-able expansions, then the `object`/`void`/
`null`/`undefined` flags, then the boolean reconstruction, then the complex set
(in the determinized insertion order of the hash-set model), then the
unresolved list. -/
def UnionType.for_each (u : UnionType) : List Ty :=
  u.string.for_each Ty.string Ty.stringLiteral ++
  u.number.for_each Ty.number Ty.numericLiteral ++
  u.bigint.for_each Ty.bigint Ty.bigintLiteral ++
  u.symbol.for_each Ty.symbol Ty.uniqueSymbol ++
  (if u.object then [Ty.object] else []) ++
  (if u.void then [Ty.void] else []) ++
  (if u.null then [Ty.null] else []) ++
  (if u.undefined then [Ty.undefined] else []) ++
  (match u.boolean with
   | (true, true) => [Ty.boolean]
   | (true, false) => [Ty.booleanLiteral true]
   | (false, true) => [Ty.booleanLiteral false]
   | (false, false) => []) ++
  u.complex ++
  u.unresolved.map Ty.unresolved

/-- The `UnionTypeBuilder<'a>` escalation lattice from `src/ty/union.rs`
(`Box` is the identity in this model; `Never` is the `Default`). -/
inductive UnionTypeBuilder : Type where
  | never
  | error
  | any
  | unknown
  | compound (compound : UnionType)
  deriving DecidableEq, Repr

/-- One step of `UnionTypeBuilder::add` for member kinds that are neither
`Union` nor `Instance` — exactly the kinds the literal-able, flag, boolean and
unresolved partitions of `for_each` re-emit.  `UnionTypeBuilder.add` inlines
`for_each`'s traversal through this helper so that the union-flattening arm is
structurally recursive; `UnionTypeBuilder.add_union_eq_for_each` below proves
the inlining equal to folding the full `add` over `for_each`. -/
def UnionTypeBuilder.addBase (s : UnionTypeBuilder) (ty : Ty) : Option UnionTypeBuilder :=
  match s, ty with
  | .error, _ => some .error
  | .any, _ => some .any
  | .unknown, _ => some .unknown
  | _, .error | _, .generic _ | _, .intrinsic _ | _, .nspace _ => some .error
  | _, .any => some .any
  | _, .unknown => some .unknown
  | _, .never => some s
  | _, .union _ => none
  | _, .inst _ => none
  | .never, c => (UnionType.default.add c).map .compound
  | .compound w, c => (w.add c).map .compound

/-- Fold `addBase` over one literal-able partition of `for_each`. -/
def UnionTypeBuilder.addLiteralAble {L : Type} (s : UnionTypeBuilder) (la : LiteralAble L)
    (anyTy : Ty) (ctor : L → Ty) : Option UnionTypeBuilder :=
  match la with
  | .vacant => some s
  | .any => s.addBase anyTy
  | .literals set => set.foldlM (fun s' x => s'.addBase (ctor x)) s

/-- Fold `addBase` over one boolean-flag partition of `for_each`. -/
def UnionTypeBuilder.addIf (s : UnionTypeBuilder) (flag : Bool) (ty : Ty) :
    Option UnionTypeBuilder :=
  if flag then s.addBase ty else some s

mutual

/-- Translation of `UnionTypeBuilder::add` from `src/ty/union.rs`, with the arms in source
order.  The `Ty::Union(tys)` arm is `tys.for_each(|ty| s.add(analyzer, ty))`
with the `for_each` traversal inlined partition by partition (certified by
`UnionTypeBuilder.add_union_eq_for_each`); the `Ty::Instance` arm re-adds the
resolved type, which the `inst` variant carries.  `none` propagates the
modelled `unreachable!` of `UnionType.add` (provably never hit from this
entry point, see `UnionTypeBuilder.add_isSome`). -/
def UnionTypeBuilder.add (s : UnionTypeBuilder) (ty : Ty) : Option UnionTypeBuilder :=
  match s, ty with
  | .error, _ => some .error
  | .any, _ => some .any
  | .unknown, _ => some .unknown
  | _, .error | _, .generic _ | _, .intrinsic _ | _, .nspace _ => some .error
  | _, .any => some .any
  | _, .unknown => some .unknown
  | _, .never => some s
  | _, .union u =>
    (s.addLiteralAble u.string Ty.string Ty.stringLiteral).bind fun s1 =>
    (s1.addLiteralAble u.number Ty.number Ty.numericLiteral).bind fun s2 =>
    (s2.addLiteralAble u.bigint Ty.bigint Ty.bigintLiteral).bind fun s3 =>
    (s3.addLiteralAble u.symbol Ty.symbol Ty.uniqueSymbol).bind fun s4 =>
    (s4.addIf u.object Ty.object).bind fun s5 =>
    (s5.addIf u.void Ty.void).bind fun s6 =>
    (s6.addIf u.null Ty.null).bind fun s7 =>
    (s7.addIf u.undefined Ty.undefined).bind fun s8 =>
    (match u.boolean with
     | (true, true) => s8.addBase Ty.boolean
     | (true, false) => s8.addBase (Ty.booleanLiteral true)
     | (false, true) => s8.addBase (Ty.booleanLiteral false)
     | (false, false) => some s8).bind fun s9 =>
    (UnionTypeBuilder.addComplexList s9 u.complex).bind fun s10 =>
    u.unresolved.foldlM (fun s' x => s'.addBase (Ty.unresolved x)) s10
  | _, .inst r => UnionTypeBuilder.add s r
  | .never, c => (UnionType.default.add c).map .compound
  | .compound w, c => (w.add c).map .compound

/-- Recursive flattening over the complex partition of a member union. -/
def UnionTypeBuilder.addComplexList (s : UnionTypeBuilder) : List Ty → Option UnionTypeBuilder
  | [] => some s
  | t :: l => (UnionTypeBuilder.add s t).bind fun s' => UnionTypeBuilder.addComplexList s' l

end

/-- Folding `UnionTypeBuilder::add` over a list of members
(`iter.for_each(|ty| builder.add(self, ty))`). -/
def UnionTypeBuilder.addList (s : UnionTypeBuilder) : List Ty → Option UnionTypeBuilder
  | [] => some s
  | t :: l => (s.add t).bind fun s' => s'.addList l

/-- Translation of `UnionTypeBuilder::build` from `src/ty/union.rs` (arena allocation is the
identity in this model). -/
def UnionTypeBuilder.build : UnionTypeBuilder → Ty
  | .never => Ty.never
  | .error => Ty.error
  | .any => Ty.any
  | .unknown => Ty.unknown
  | .compound u => Ty.union u

/-- The analyzer state the union façade consumes.  The per-type property
resolver `get_property` is an external collaborator (declared, not defined, in
this slice), modelled as an arbitrary pure resolver. -/
structure Analyzer : Type where
  get_property : Ty → Nat → Ty

/-- Translation of `Analyzer::into_union` from `src/ty/union.rs`: 0 members → `Undefined`
(the source carries `FIXME: Should be Ty::Never` here), 1 member → returned
unchanged, otherwise fold everything through a fresh builder and build. -/
def Analyzer.into_union (_a : Analyzer) (types : List Ty) : Option Ty :=
  match types with
  | [] => some Ty.undefined
  | [ty] => some ty
  | _ => (UnionTypeBuilder.never.addList types).map UnionTypeBuilder.build

/-- Translation of `Analyzer::get_optional_type` from `src/ty/union.rs`. -/
def Analyzer.get_optional_type (a : Analyzer) (optional : Bool) (ty : Ty) : Option Ty :=
  if optional then a.into_union [Ty.undefined, ty] else some ty

/-- Translation of `Analyzer::get_union_property` from `src/ty/union.rs`: resolve the property
on every member `for_each` produces and fold the results through a fresh
builder. -/
def Analyzer.get_union_property (a : Analyzer) (union : UnionType) (key : Nat) : Option Ty :=
  (union.for_each.foldlM
    (fun (s : UnionTypeBuilder) ty => s.add (a.get_property ty key))
    UnionTypeBuilder.never).map UnionTypeBuilder.build

/-- Modelled from the spec (§4.5): the scope kinds of the control-flow frames.
The scope machinery (`push_indeterminate_scope`, `push_loop_scope`,
`pop_scope`) lives outside `src/`; only `exec_while_statement` is source code. -/
inductive ScopeKind : Type where
  | normal
  | indeterminate
  | loop
  deriving DecidableEq, Repr

/-- Modelled from the spec (§4.5): a control-flow frame recording its kind and
the binding state at scope entry. -/
structure Scope : Type where
  kind : ScopeKind
  saved : List (String × Ty)
  deriving DecidableEq, Repr

/-- Modelled from the spec (§4.5): the flow-sensitive state threaded through
statement execution — the current binding states plus the strictly nested
scope stack. -/
structure FlowState : Type where
  bindings : List (String × Ty)
  scopes : List Scope
  deriving DecidableEq, Repr

/-- Modelled from the spec (§4.5): `push_indeterminate_scope` pushes a frame
recording the current binding state. -/
def FlowState.push_indeterminate_scope (st : FlowState) : FlowState :=
  ⟨st.bindings, ⟨.indeterminate, st.bindings⟩ :: st.scopes⟩

/-- Modelled from the spec (§4.5): `push_loop_scope` pushes a frame recording
the current binding state. -/
def FlowState.push_loop_scope (st : FlowState) : FlowState :=
  ⟨st.bindings, ⟨.loop, st.bindings⟩ :: st.scopes⟩

/-- Modelled from the spec (§4.5): the pop-time merge of one binding under a
frame whose guarded code ran an uncertain number of times — a reassigned
binding becomes the builder union of its value before the scope and its value
after one execution; an untouched binding keeps its value. -/
def Analyzer.merge_uncertain (a : Analyzer) (old new : Ty) : Option Ty :=
  if old = new then some old else a.into_union [old, new]

/-- Modelled from the spec (§4.5): `pop_scope` removes the top frame and merges
the resulting binding state into the parent by a pure function of the popped
kind: `Normal` keeps the current state; `Indeterminate` and `Loop` merge each
binding via `merge_uncertain` against the state saved at scope entry. -/
def Analyzer.pop_scope (a : Analyzer) (st : FlowState) : Option FlowState :=
  match st.scopes with
  | [] => none
  | sc :: rest =>
    match sc.kind with
    | .normal => some ⟨st.bindings, rest⟩
    | .indeterminate | .loop =>
      (st.bindings.mapM (fun (bv : String × Ty) =>
        match (sc.saved.lookup bv.1 : Option Ty) with
        | some old => (a.merge_uncertain old bv.2).map (fun m => (bv.1, m))
        | none => some bv)).map (fun bs => ⟨bs, rest⟩)

/-- Translation of `Analyzer::exec_while_statement` from `src/nodes/stmt/while_statement.rs`:
push an Indeterminate scope, evaluate the loop test inside it, pop; then push a
Loop scope, execute the body inside it, pop.  The effects of
`exec_expression(node.test)` and `exec_statement(node.body)` are modelled by
the state transformers `test` and `body`. -/
def Analyzer.exec_while_statement (a : Analyzer) (test body : FlowState → FlowState)
    (st : FlowState) : Option FlowState :=
  (a.pop_scope (test st.push_indeterminate_scope)).bind fun st2 =>
  a.pop_scope (body st2.push_loop_scope)

/-- A statement body that reassigns the binding `x` to `v` (used to state the
loop-merge scenario). -/
def FlowState.assign (st : FlowState) (x : String) (v : Ty) : FlowState :=
  ⟨st.bindings.map (fun bv => if bv.1 = x then (x, v) else bv), st.scopes⟩

/-- Folding `hinsert` over a second list: the union of two hash sets in the
insertion-ordered list model. -/
def insertList {α : Type} [DecidableEq α] (a b : List α) : List α :=
  b.foldl hinsert a

theorem mem_hinsert {α : Type} [DecidableEq α] {l : List α} {x y : α} :
    y ∈ hinsert l x ↔ y ∈ l ∨ y = x := by
  by_cases h : x ∈ l <;> simp [hinsert, h]
  intro hyx
  rw [hyx]
  exact h

theorem hinsert_nodup {α : Type} [DecidableEq α] {l : List α} (x : α) (h : l.Nodup) :
    (hinsert l x).Nodup := by
  by_cases hx : x ∈ l <;> simp [hinsert, hx, List.nodup_append, h]

theorem hinsert_ne_nil {α : Type} [DecidableEq α] {l : List α} {x : α} :
    hinsert l x ≠ [] := by
  unfold hinsert
  split
  · intro h
    subst h
    simp_all
  · simp

theorem insertList_nil_right {α : Type} [DecidableEq α] (a : List α) :
    insertList a [] = a := rfl

theorem insertList_cons {α : Type} [DecidableEq α] (a : List α) (x : α) (b : List α) :
    insertList a (x :: b) = insertList (hinsert a x) b := rfl

theorem insertList_append {α : Type} [DecidableEq α] (a b c : List α) :
    insertList a (b ++ c) = insertList (insertList a b) c :=
  List.foldl_append ..

theorem mem_insertList {α : Type} [DecidableEq α] {a b : List α} {y : α} :
    y ∈ insertList a b ↔ y ∈ a ∨ y ∈ b := by
  induction b generalizing a with
  | nil => simp [insertList_nil_right]
  | cons x b ih =>
    rw [insertList_cons, ih]
    simp [mem_hinsert]
    tauto

theorem insertList_nodup {α : Type} [DecidableEq α] {a : List α} (b : List α)
    (h : a.Nodup) : (insertList a b).Nodup := by
  induction b generalizing a with
  | nil => exact h
  | cons x b ih => exact insertList_cons (α := α) a x b ▸ ih (hinsert_nodup x h)

theorem insertList_hinsert_right {α : Type} [DecidableEq α] (a b : List α) (x : α) :
    insertList a (hinsert b x) = hinsert (insertList a b) x := by
  by_cases hx : x ∈ b
  · have : x ∈ insertList a b := mem_insertList.mpr (Or.inr hx)
    simp [hinsert, hx, this]
  · rw [show hinsert b x = b ++ [x] from by simp [hinsert, hx], insertList_append]
    rfl

theorem insertList_assoc {α : Type} [DecidableEq α] (a b c : List α) :
    insertList a (insertList b c) = insertList (insertList a b) c := by
  induction c generalizing b with
  | nil => rfl
  | cons x c ih =>
    rw [insertList_cons, insertList_cons, ih (hinsert b x), insertList_hinsert_right]

theorem insertList_eq_append {α : Type} [DecidableEq α] {a b : List α}
    (h : (a ++ b).Nodup) : insertList a b = a ++ b := by
  induction b generalizing a with
  | nil => simp [insertList_nil_right]
  | cons x b ih =>
    have hx : x ∉ a := by
      intro hmem
      exact (List.nodup_append.mp h).2.2 hmem (List.mem_cons_self x b)
    rw [insertList_cons, show hinsert a x = a ++ [x] from by simp [hinsert, hx],
      ih (by simpa using h), List.append_assoc]
    rfl

theorem insertList_eq_nil {α : Type} [DecidableEq α] {a b : List α}
    (h : insertList a b = []) : a = [] := by
  induction b generalizing a with
  | nil => exact h
  | cons x b ih =>
    have := ih (insertList_cons (α := α) a x b ▸ h)
    exact absurd this hinsert_ne_nil

/-- Widening-lattice merge: the effect on one literal-able slot of re-adding
every member another slot of the same kind expands to. -/
def LiteralAble.merge {L : Type} [DecidableEq L] : LiteralAble L → LiteralAble L → LiteralAble L
  | x, .vacant => x
  | _, .any => .any
  | .vacant, .literals t => .literals t
  | .any, .literals _ => .any
  | .literals s, .literals t => .literals (insertList s t)

theorem LiteralAble.merge_vacant_left {L : Type} [DecidableEq L] (y : LiteralAble L) :
    LiteralAble.vacant.merge y = y := by
  cases y <;> rfl

theorem LiteralAble.merge_vacant_right {L : Type} [DecidableEq L] (x : LiteralAble L) :
    x.merge .vacant = x := by
  cases x <;> rfl

theorem LiteralAble.merge_any_right {L : Type} [DecidableEq L] (x : LiteralAble L) :
    x.merge .any = .any := by
  cases x <;> rfl

theorem LiteralAble.mergeAssoc {L : Type} [DecidableEq L] (x y z : LiteralAble L) :
    (x.merge y).merge z = x.merge (y.merge z) := by
  cases x <;> cases y <;> cases z <;>
    simp [LiteralAble.merge, insertList_assoc]

/-- Well-formedness of a literal-able slot as `LiteralAble.add` produces it:
a literal set is nonempty and duplicate-free. -/
def LiteralAble.Ok {L : Type} : LiteralAble L → Prop
  | .literals s => s ≠ [] ∧ s.Nodup
  | _ => True

theorem LiteralAble.Ok.vacant {L : Type} : (LiteralAble.vacant : LiteralAble L).Ok :=
  trivial

theorem LiteralAble.Ok.any {L : Type} : (LiteralAble.any : LiteralAble L).Ok :=
  trivial

theorem LiteralAble.Ok.add {L : Type} [DecidableEq L] {la : LiteralAble L} (h : la.Ok)
    (x : L) : (la.add x).Ok := by
  cases la with
  | vacant => exact ⟨by simp, by simp⟩
  | any => exact trivial
  | literals s => exact ⟨hinsert_ne_nil, hinsert_nodup x h.2⟩

theorem LiteralAble.Ok.mergeLit {L : Type} [DecidableEq L] {x y : LiteralAble L} (hx : x.Ok)
    (hy : y.Ok) : (x.merge y).Ok := by
  cases x <;> cases y <;> simp_all [LiteralAble.merge, LiteralAble.Ok]
  exact ⟨fun h => hx.1 (insertList_eq_nil h), insertList_nodup _ hx.2⟩

theorem LiteralAble.foldl_add {L : Type} [DecidableEq L] (x : LiteralAble L) (s : List L)
    (hne : s ≠ []) (hnd : s.Nodup) :
    s.foldl LiteralAble.add x = x.merge (.literals s) := by
  cases x with
  | any =>
    have : ∀ t : List L, t.foldl LiteralAble.add .any = .any := by
      intro t
      induction t with
      | nil => rfl
      | cons a t ih => exact ih
    simp [this, LiteralAble.merge]
  | literals a =>
    have : ∀ (t : List L) (a : List L),
        t.foldl LiteralAble.add (.literals a) = .literals (insertList a t) := by
      intro t
      induction t with
      | nil => intro a; rfl
      | cons b t ih => intro a; exact ih (hinsert a b)
    simp [this, LiteralAble.merge]
  | vacant =>
    cases s with
    | nil => exact absurd rfl hne
    | cons b t =>
      have hfold : ∀ (t : List L) (a : List L),
          t.foldl LiteralAble.add (.literals a) = .literals (insertList a t) := by
        intro t
        induction t with
        | nil => intro a; rfl
        | cons c t ih => intro a; exact ih (hinsert a c)
      have h1 : insertList [b] t = b :: t := insertList_eq_append (by simpa using hnd)
      simp [List.foldl_cons, LiteralAble.add, hfold, h1, LiteralAble.merge]

/-- Componentwise merge of two canonical stores: the effect on a compound of
re-adding every member the other compound's `for_each` produces. -/
def UnionType.merge (w v : UnionType) : UnionType :=
  ⟨w.string.merge v.string, w.number.merge v.number, w.bigint.merge v.bigint,
   w.symbol.merge v.symbol, w.object || v.object, w.void || v.void, w.null || v.null,
   w.undefined || v.undefined, (w.boolean.1 || v.boolean.1, w.boolean.2 || v.boolean.2),
   insertList w.complex v.complex, w.unresolved ++ v.unresolved⟩

/-- The member kinds `UnionTypeBuilder` ever stores in the complex set (the
builder escalates on `Namespace`, so only these five kinds arrive). -/
def Ty.isComplexMember : Ty → Bool
  | .record _ | .function _ | .constructor _ | .interface _ | .intersection _ => true
  | _ => false

/-- Well-formedness of a compound as the builder produces it: complex members
are of the five builder-storable kinds and deduplicated, literal slots are
well-formed, and at least one member has been stored. -/
def UnionType.Ok (u : UnionType) : Prop :=
  (∀ t ∈ u.complex, t.isComplexMember = true) ∧ u.complex.Nodup ∧
  u.string.Ok ∧ u.number.Ok ∧ u.bigint.Ok ∧ u.symbol.Ok ∧ u ≠ UnionType.default

theorem UnionType.merge_default_right (w : UnionType) : w.merge UnionType.default = w := by
  cases w
  simp [UnionType.merge, UnionType.default, LiteralAble.merge_vacant_right,
    insertList_nil_right]

theorem UnionType.merge_default_left {v : UnionType} (h : v.complex.Nodup) :
    UnionType.default.merge v = v := by
  cases v
  simp_all [UnionType.merge, UnionType.default, LiteralAble.merge_vacant_left]
  exact insertList_eq_append (by simpa)

theorem UnionType.merge_assoc (w v x : UnionType) :
    (w.merge v).merge x = w.merge (v.merge x) := by
  simp [UnionType.merge, LiteralAble.mergeAssoc, insertList_assoc, Bool.or_assoc]

theorem LiteralAble.merge_eq_vacant {L : Type} [DecidableEq L] {x y : LiteralAble L}
    (h : x.merge y = .vacant) : x = .vacant := by
  cases x <;> cases y <;> simp_all [LiteralAble.merge]

theorem UnionType.merge_ne_default {w v : UnionType} (h : w ≠ UnionType.default) :
    w.merge v ≠ UnionType.default := by
  intro hm
  apply h
  have hs := congrArg UnionTypeF.string hm
  have hn := congrArg UnionTypeF.number hm
  have hb := congrArg UnionTypeF.bigint hm
  have hy := congrArg UnionTypeF.symbol hm
  have ho := congrArg UnionTypeF.object hm
  have hv := congrArg UnionTypeF.void hm
  have hu := congrArg UnionTypeF.null hm
  have hd := congrArg UnionTypeF.undefined hm
  have hbo := congrArg UnionTypeF.boolean hm
  have hc := congrArg UnionTypeF.complex hm
  have hr := congrArg UnionTypeF.unresolved hm
  simp [UnionType.merge, UnionType.default, Prod.ext_iff] at hs hn hb hy ho hv hu hd hbo hc hr
  ext1
  · exact LiteralAble.merge_eq_vacant hs ▸ by simp [UnionType.default]
  · exact LiteralAble.merge_eq_vacant hn ▸ by simp [UnionType.default]
  · exact LiteralAble.merge_eq_vacant hb ▸ by simp [UnionType.default]
  · exact LiteralAble.merge_eq_vacant hy ▸ by simp [UnionType.default]
  · simp [UnionType.default, ho.1]
  · simp [UnionType.default, hv.1]
  · simp [UnionType.default, hu.1]
  · simp [UnionType.default, hd.1]
  · simp [UnionType.default, Prod.ext_iff, hbo.1.1, hbo.2.1]
  · simp [UnionType.default, insertList_eq_nil hc]
  · simp [UnionType.default, hr.1]

theorem UnionType.Ok.mergeCompound {w v : UnionType} (hw : w.Ok) (hv : v.Ok) : (w.merge v).Ok := by
  refine ⟨?_, ?_, hw.2.2.1.mergeLit hv.2.2.1, hw.2.2.2.1.mergeLit hv.2.2.2.1,
    hw.2.2.2.2.1.mergeLit hv.2.2.2.2.1, hw.2.2.2.2.2.1.mergeLit hv.2.2.2.2.2.1,
    UnionType.merge_ne_default hw.2.2.2.2.2.2⟩
  · intro t ht
    rcases mem_insertList.mp ht with h | h
    · exact hw.1 t h
    · exact hv.1 t h
  · exact insertList_nodup _ hw.2.1

/-- Combination of builder states: `s.combine d` is the state reached from `s`
by replaying a member sequence that drives a fresh builder to `d`. -/
def UnionTypeBuilder.combine : UnionTypeBuilder → UnionTypeBuilder → UnionTypeBuilder
  | s, .never => s
  | .never, v => v
  | .error, _ => .error
  | .any, _ => .any
  | .unknown, _ => .unknown
  | .compound _, .error => .error
  | .compound _, .any => .any
  | .compound _, .unknown => .unknown
  | .compound w, .compound v => .compound (w.merge v)

theorem UnionTypeBuilder.combine_never_right (s : UnionTypeBuilder) :
    s.combine .never = s := by
  cases s <;> rfl

theorem UnionTypeBuilder.combine_never_left (v : UnionTypeBuilder) :
    UnionTypeBuilder.never.combine v = v := by
  cases v <;> rfl

theorem UnionTypeBuilder.combine_assoc (s d x : UnionTypeBuilder) :
    (s.combine d).combine x = s.combine (d.combine x) := by
  cases s <;> cases d <;> cases x <;>
    simp [UnionTypeBuilder.combine, UnionType.merge_assoc]

/-- Well-formedness of a builder state: a compound is well-formed. -/
def UnionTypeBuilder.Ok : UnionTypeBuilder → Prop
  | .compound u => u.Ok
  | _ => True

theorem UnionTypeBuilder.Ok.combine {s d : UnionTypeBuilder} (hs : s.Ok) (hd : d.Ok) :
    (s.combine d).Ok := by
  cases s <;> cases d <;>
    simp_all [UnionTypeBuilder.combine, UnionTypeBuilder.Ok]
  exact hs.mergeCompound hd

theorem UnionTypeBuilder.add_error_left (t : Ty) :
    UnionTypeBuilder.error.add t = some .error := by
  cases t <;> rfl

theorem UnionTypeBuilder.add_any_left (t : Ty) :
    UnionTypeBuilder.any.add t = some .any := by
  cases t <;> rfl

theorem UnionTypeBuilder.add_unknown_left (t : Ty) :
    UnionTypeBuilder.unknown.add t = some .unknown := by
  cases t <;> rfl

theorem UnionTypeBuilder.add_never_right (s : UnionTypeBuilder) :
    s.add .never = some s := by
  cases s <;> rfl

theorem UnionTypeBuilder.add_inst (s : UnionTypeBuilder) (r : Ty) :
    s.add (.inst r) = s.add r := by
  cases s with
  | error => rw [add_error_left, add_error_left]
  | any => rw [add_any_left, add_any_left]
  | unknown => rw [add_unknown_left, add_unknown_left]
  | never => rfl
  | compound w => rfl

/-- The member kinds that are handled without recursion by
`UnionTypeBuilder::add` (everything except `Union` and `Instance`). -/
def Ty.isBaseKind : Ty → Bool
  | .union _ => false
  | .inst _ => false
  | _ => true

theorem UnionTypeBuilder.add_eq_addBase {t : Ty} (h : t.isBaseKind = true)
    (s : UnionTypeBuilder) : s.add t = s.addBase t := by
  cases t <;> cases s <;> first
    | rfl
    | simp [Ty.isBaseKind] at h

theorem UnionTypeBuilder.addList_nil (s : UnionTypeBuilder) :
    s.addList [] = some s := rfl

theorem UnionTypeBuilder.addList_cons (s : UnionTypeBuilder) (t : Ty) (l : List Ty) :
    s.addList (t :: l) = (s.add t).bind (·.addList l) := rfl

theorem UnionTypeBuilder.addList_append (l m : List Ty) (s : UnionTypeBuilder) :
    s.addList (l ++ m) = (s.addList l).bind (·.addList m) := by
  induction l generalizing s with
  | nil => simp [addList_nil]
  | cons t l ih =>
    simp only [List.cons_append, addList_cons, Option.bind_assoc]
    cases s.add t with
    | none => rfl
    | some s' => simp [ih]

theorem UnionTypeBuilder.addList_error (l : List Ty) :
    UnionTypeBuilder.error.addList l = some .error := by
  induction l with
  | nil => rfl
  | cons t l ih => simp [addList_cons, add_error_left, ih]

theorem UnionTypeBuilder.addList_any (l : List Ty) :
    UnionTypeBuilder.any.addList l = some .any := by
  induction l with
  | nil => rfl
  | cons t l ih => simp [addList_cons, add_any_left, ih]

theorem UnionTypeBuilder.addList_unknown (l : List Ty) :
    UnionTypeBuilder.unknown.addList l = some .unknown := by
  induction l with
  | nil => rfl
  | cons t l ih => simp [addList_cons, add_unknown_left, ih]

theorem UnionTypeBuilder.addList_la_for_each {L : Type} (la : LiteralAble L) (anyT : Ty)
    (ctor : L → Ty)
    (hA : ∀ s : UnionTypeBuilder, s.add anyT = s.addBase anyT)
    (hC : ∀ (s : UnionTypeBuilder) (x : L), s.add (ctor x) = s.addBase (ctor x))
    (s : UnionTypeBuilder) :
    s.addList (la.for_each anyT ctor) = s.addLiteralAble la anyT ctor := by
  cases la with
  | vacant => rfl
  | any =>
    rw [LiteralAble.for_each, UnionTypeBuilder.addLiteralAble, addList_cons, hA]
    cases s.addBase anyT <;> rfl
  | literals set =>
    rw [LiteralAble.for_each, UnionTypeBuilder.addLiteralAble]
    induction set generalizing s with
    | nil => rfl
    | cons x xs ih =>
      rw [List.map_cons, addList_cons, hC, List.foldlM_cons]
      cases s.addBase (ctor x) with
      | none => rfl
      | some s' => exact ih s'

theorem UnionTypeBuilder.addList_flag (flag : Bool) (ty : Ty)
    (h : ∀ s : UnionTypeBuilder, s.add ty = s.addBase ty) (s : UnionTypeBuilder) :
    s.addList (if flag then [ty] else []) = s.addIf flag ty := by
  cases flag with
  | false => rfl
  | true =>
    rw [if_pos rfl, addList_cons, h, UnionTypeBuilder.addIf, if_pos rfl]
    cases s.addBase ty <;> rfl

theorem UnionTypeBuilder.addList_eq_addComplexList (l : List Ty) (s : UnionTypeBuilder) :
    s.addList l = UnionTypeBuilder.addComplexList s l := by
  induction l generalizing s with
  | nil => rfl
  | cons t l ih =>
    rw [addList_cons, UnionTypeBuilder.addComplexList]
    cases s.add t with
    | none => rfl
    | some s' => exact ih s'

theorem UnionTypeBuilder.addList_unres (l : List Nat) (s : UnionTypeBuilder) :
    s.addList (l.map Ty.unresolved) =
      l.foldlM (fun s' x => UnionTypeBuilder.addBase s' (Ty.unresolved x)) s := by
  induction l generalizing s with
  | nil => rfl
  | cons x xs ih =>
    rw [List.map_cons, addList_cons, @add_eq_addBase (Ty.unresolved x) rfl, List.foldlM_cons]
    cases s.addBase (Ty.unresolved x) with
    | none => rfl
    | some s' => exact ih s'

/-- The union-flattening arm of `UnionTypeBuilder.add` is folding `add` over
the member's `for_each` enumeration — i.e. the source's
`tys.for_each(|ty| s.add(analyzer, ty))`. -/
theorem UnionTypeBuilder.add_union_eq_for_each (s : UnionTypeBuilder) (u : UnionType) :
    s.add (.union u) = s.addList u.for_each := by
  have h1 := addList_la_for_each u.string Ty.string Ty.stringLiteral
    (fun s => @add_eq_addBase Ty.string rfl s)
    (fun s x => @add_eq_addBase (Ty.stringLiteral x) rfl s)
  have h2 := addList_la_for_each u.number Ty.number Ty.numericLiteral
    (fun s => @add_eq_addBase Ty.number rfl s)
    (fun s x => @add_eq_addBase (Ty.numericLiteral x) rfl s)
  have h3 := addList_la_for_each u.bigint Ty.bigint Ty.bigintLiteral
    (fun s => @add_eq_addBase Ty.bigint rfl s)
    (fun s x => @add_eq_addBase (Ty.bigintLiteral x) rfl s)
  have h4 := addList_la_for_each u.symbol Ty.symbol Ty.uniqueSymbol
    (fun s => @add_eq_addBase Ty.symbol rfl s)
    (fun s x => @add_eq_addBase (Ty.uniqueSymbol x) rfl s)
  have h5 := addList_flag u.object Ty.object (fun s => @add_eq_addBase Ty.object rfl s)
  have h6 := addList_flag u.void Ty.void (fun s => @add_eq_addBase Ty.void rfl s)
  have h7 := addList_flag u.null Ty.null (fun s => @add_eq_addBase Ty.null rfl s)
  have h8 := addList_flag u.undefined Ty.undefined
    (fun s => @add_eq_addBase Ty.undefined rfl s)
  have h9 : ∀ s' : UnionTypeBuilder,
      s'.addList (match u.boolean with
        | (true, true) => [Ty.boolean]
        | (true, false) => [Ty.booleanLiteral true]
        | (false, true) => [Ty.booleanLiteral false]
        | (false, false) => []) =
      (match u.boolean with
        | (true, true) => s'.addBase Ty.boolean
        | (true, false) => s'.addBase (Ty.booleanLiteral true)
        | (false, true) => s'.addBase (Ty.booleanLiteral false)
        | (false, false) => some s') := by
    intro s'
    obtain ⟨b1, b2⟩ := u.boolean
    cases b1 <;> cases b2 <;>
      simp only [addList_cons, @add_eq_addBase Ty.boolean rfl,
        @add_eq_addBase (Ty.booleanLiteral true) rfl,
        @add_eq_addBase (Ty.booleanLiteral false) rfl, addList_nil] <;>
      first
        | rfl
        | (cases s'.addBase Ty.boolean <;> rfl)
        | (cases s'.addBase (Ty.booleanLiteral true) <;> rfl)
        | (cases s'.addBase (Ty.booleanLiteral false) <;> rfl)
  cases s with
  | error => rw [add_error_left, addList_error]
  | any => rw [add_any_left, addList_any]
  | unknown => rw [add_unknown_left, addList_unknown]
  | never =>
    conv_rhs =>
      rw [UnionType.for_each]
      simp only [addList_append, Option.bind_assoc]
      simp only [h1, h2, h3, h4, h5, h6, h7, h8, h9]
      simp only [addList_unres]
      simp only [addList_eq_addComplexList]
    rfl
  | compound w =>
    conv_rhs =>
      rw [UnionType.for_each]
      simp only [addList_append, Option.bind_assoc]
      simp only [h1, h2, h3, h4, h5, h6, h7, h8, h9]
      simp only [addList_unres]
      simp only [addList_eq_addComplexList]
    rfl

theorem LiteralAble.merge_single {L : Type} [DecidableEq L] (x : LiteralAble L) (y : L) :
    x.merge (.literals [y]) = x.add y := by
  cases x with
  | vacant => rfl
  | any => rfl
  | literals s =>
    show LiteralAble.literals (insertList s [y]) = _
    rw [insertList_cons, insertList_nil_right]
    rfl

theorem UnionTypeF.sizeOf_string_lt (u : UnionType) : sizeOf u.string < sizeOf u := by
  cases u; simp; try omega

theorem UnionTypeF.sizeOf_number_lt (u : UnionType) : sizeOf u.number < sizeOf u := by
  cases u; simp; try omega

theorem UnionTypeF.sizeOf_bigint_lt (u : UnionType) : sizeOf u.bigint < sizeOf u := by
  cases u; simp; try omega

theorem UnionTypeF.sizeOf_symbol_lt (u : UnionType) : sizeOf u.symbol < sizeOf u := by
  cases u; simp; try omega

theorem UnionTypeF.sizeOf_unresolved_lt (u : UnionType) : sizeOf u.unresolved < sizeOf u := by
  cases u; simp; try omega

theorem UnionTypeF.sizeOf_pos (u : UnionType) : 4 < sizeOf u := by
  cases u; simp; try omega

theorem LiteralAble.for_each_mem_sizeOf {L : Type} [SizeOf L] {la : LiteralAble L}
    {anyT t : Ty} {ctor : L → Ty} (h : t ∈ la.for_each anyT ctor) :
    t = anyT ∨ ∃ x, sizeOf x < sizeOf la ∧ t = ctor x := by
  cases la with
  | vacant => simp [LiteralAble.for_each] at h
  | any =>
    simp [LiteralAble.for_each] at h
    exact Or.inl h
  | literals set =>
    simp [LiteralAble.for_each] at h
    obtain ⟨x, hx, rfl⟩ := h
    refine Or.inr ⟨x, ?_, rfl⟩
    have h1 := List.sizeOf_lt_of_mem hx
    have h2 : sizeOf set < sizeOf (LiteralAble.literals set : LiteralAble L) := by
      simp
    omega

theorem UnionType.sizeOf_mem_for_each {u : UnionType} {t : Ty} (h : t ∈ u.for_each) :
    sizeOf t < sizeOf (Ty.union u) := by
  have hu4 := u.sizeOf_pos
  have husz : sizeOf (Ty.union u) = 1 + sizeOf u := by simp
  rw [UnionType.for_each] at h
  simp only [List.mem_append] at h
  rcases h with ((((((((((h | h) | h) | h) | h) | h) | h) | h) | h) | h) | h)
  · rcases LiteralAble.for_each_mem_sizeOf h with rfl | ⟨x, hx, rfl⟩
    · have h1 : sizeOf Ty.string = 1 := rfl
      omega
    · have h2 := u.sizeOf_string_lt
      have h3 : sizeOf (Ty.stringLiteral x) = 1 + sizeOf x := by simp
      omega
  · rcases LiteralAble.for_each_mem_sizeOf h with rfl | ⟨x, hx, rfl⟩
    · have h1 : sizeOf Ty.number = 1 := rfl
      omega
    · have h2 := u.sizeOf_number_lt
      have h3 : sizeOf (Ty.numericLiteral x) = 1 + sizeOf x := by simp
      omega
  · rcases LiteralAble.for_each_mem_sizeOf h with rfl | ⟨x, hx, rfl⟩
    · have h1 : sizeOf Ty.bigint = 1 := rfl
      omega
    · have h2 := u.sizeOf_bigint_lt
      have h3 : sizeOf (Ty.bigintLiteral x) = 1 + sizeOf x := by simp
      omega
  · rcases LiteralAble.for_each_mem_sizeOf h with rfl | ⟨x, hx, rfl⟩
    · have h1 : sizeOf Ty.symbol = 1 := rfl
      omega
    · have h2 := u.sizeOf_symbol_lt
      have h3 : sizeOf (Ty.uniqueSymbol x) = 1 + sizeOf x := by simp
      omega
  · have ht : t = Ty.object := by
      by_cases hb : u.object
      · simpa [hb] using h
      · simp [hb] at h
    subst ht
    have h1 : sizeOf Ty.object = 1 := rfl
    omega
  · have ht : t = Ty.void := by
      by_cases hb : u.void
      · simpa [hb] using h
      · simp [hb] at h
    subst ht
    have h1 : sizeOf Ty.void = 1 := rfl
    omega
  · have ht : t = Ty.null := by
      by_cases hb : u.null
      · simpa [hb] using h
      · simp [hb] at h
    subst ht
    have h1 : sizeOf Ty.null = 1 := rfl
    omega
  · have ht : t = Ty.undefined := by
      by_cases hb : u.undefined
      · simpa [hb] using h
      · simp [hb] at h
    subst ht
    have h1 : sizeOf Ty.undefined = 1 := rfl
    omega
  · have ht : sizeOf t ≤ 2 := by
      rcases hb : u.boolean with ⟨b1, b2⟩
      rw [hb] at h
      cases b1 <;> cases b2 <;> simp at h <;> subst h <;> decide
    omega
  · have h1 := List.sizeOf_lt_of_mem h
    have h2 := u.sizeOf_complex_lt
    omega
  · simp only [List.mem_map] at h
    obtain ⟨i, hi, rfl⟩ := h
    have h1 := List.sizeOf_lt_of_mem hi
    have h2 := u.sizeOf_unresolved_lt
    have h3 : sizeOf (Ty.unresolved i) = 1 + sizeOf i := by simp
    omega

/-- The member kinds that fall through to the compound-update arms of
`UnionTypeBuilder::add`. -/
def Ty.isCompoundable : Ty → Bool
  | .never | .error | .any | .unknown | .union _ | .inst _
  | .generic _ | .intrinsic _ | .nspace _ => false
  | _ => true

theorem UnionTypeBuilder.add_compound (w : UnionType) {c : Ty}
    (h : c.isCompoundable = true) :
    (UnionTypeBuilder.compound w).add c = (w.add c).map .compound := by
  cases c <;> first | rfl | simp [Ty.isCompoundable] at h

theorem UnionTypeBuilder.add_never_compoundable {c : Ty} (h : c.isCompoundable = true) :
    UnionTypeBuilder.never.add c = (UnionType.default.add c).map .compound := by
  cases c <;> first | rfl | simp [Ty.isCompoundable] at h

/-- The member-wise property the master lemma establishes for every `Ty`:
adding it to a fresh builder succeeds with a well-formed state, and adding it
to any state is combination with that fresh result. -/
def UnionTypeBuilder.AddP (t : Ty) : Prop :=
  ∃ d, UnionTypeBuilder.never.add t = some d ∧ d.Ok ∧
    ∀ s : UnionTypeBuilder, s.add t = some (s.combine d)

theorem UnionTypeBuilder.addList_master_of {l : List Ty}
    (hel : ∀ t ∈ l, UnionTypeBuilder.AddP t) :
    ∃ d, UnionTypeBuilder.never.addList l = some d ∧ d.Ok ∧
      ∀ s : UnionTypeBuilder, s.addList l = some (s.combine d) := by
  induction l with
  | nil =>
    refine ⟨.never, rfl, trivial, fun s => ?_⟩
    rw [addList_nil, combine_never_right]
  | cons t l ih =>
    obtain ⟨d, _hd1, hd2, hd3⟩ := hel t (List.mem_cons_self t l)
    obtain ⟨D, _hD1, hD2, hD3⟩ := ih (fun t' ht' => hel t' (List.mem_cons_of_mem t ht'))
    refine ⟨d.combine D, ?_, hd2.combine hD2, fun s => ?_⟩
    · rw [addList_cons, hd3 .never, combine_never_left, Option.some_bind, hD3 d]
    · rw [addList_cons, hd3 s, Option.some_bind, hD3 (s.combine d), combine_assoc]

theorem UnionTypeBuilder.add_master (n : Nat) :
    ∀ t : Ty, sizeOf t ≤ n → UnionTypeBuilder.AddP t := by
  induction n using Nat.strong_induction_on with
  | _ n ih =>
    intro t ht
    cases t with
    | never =>
      exact ⟨.never, rfl, trivial, fun s => by rw [add_never_right, combine_never_right]⟩
    | error => exact ⟨.error, rfl, trivial, fun s => by cases s <;> rfl⟩
    | generic i => exact ⟨.error, rfl, trivial, fun s => by cases s <;> rfl⟩
    | intrinsic i => exact ⟨.error, rfl, trivial, fun s => by cases s <;> rfl⟩
    | nspace i => exact ⟨.error, rfl, trivial, fun s => by cases s <;> rfl⟩
    | any => exact ⟨.any, rfl, trivial, fun s => by cases s <;> rfl⟩
    | unknown => exact ⟨.unknown, rfl, trivial, fun s => by cases s <;> rfl⟩
    | inst r =>
      have hsz : sizeOf (Ty.inst r) = 1 + sizeOf r := by simp
      obtain ⟨d, h1, h2, h3⟩ := ih (n - 1) (by omega) r (by omega)
      exact ⟨d, by rw [add_inst]; exact h1, h2, fun s => by rw [add_inst]; exact h3 s⟩
    | union u =>
      have hel : ∀ t' ∈ UnionType.for_each u, UnionTypeBuilder.AddP t' := by
        intro t' ht'
        have hlt := UnionType.sizeOf_mem_for_each ht'
        exact ih (sizeOf t') (by omega) t' (Nat.le_refl _)
      obtain ⟨d, h1, h2, h3⟩ := addList_master_of hel
      refine ⟨d, ?_, h2, fun s => ?_⟩
      · rw [add_union_eq_for_each, h1]
      · rw [add_union_eq_for_each, h3 s]
    | booleanLiteral b =>
      cases b with
      | true =>
        refine ⟨_, rfl, ⟨by simp [UnionType.default], by simp [UnionType.default], trivial,
          trivial, trivial, trivial, by simp [UnionType.default]⟩, fun s => ?_⟩
        cases s with
        | never => rfl
        | error => rfl
        | any => rfl
        | unknown => rfl
        | compound w =>
          rw [UnionTypeBuilder.add_compound w]
          · simp [UnionTypeBuilder.combine, UnionType.add, UnionType.merge,
              UnionType.default, LiteralAble.merge_vacant_right, insertList_nil_right]
          · rfl
      | false =>
        refine ⟨_, rfl, ⟨by simp [UnionType.default], by simp [UnionType.default], trivial,
          trivial, trivial, trivial, by simp [UnionType.default]⟩, fun s => ?_⟩
        cases s with
        | never => rfl
        | error => rfl
        | any => rfl
        | unknown => rfl
        | compound w =>
          rw [UnionTypeBuilder.add_compound w]
          · simp [UnionTypeBuilder.combine, UnionType.add, UnionType.merge,
              UnionType.default, LiteralAble.merge_vacant_right, insertList_nil_right]
          · rfl
    | object =>
      refine ⟨_, rfl, ⟨by simp [UnionType.default], by simp [UnionType.default], trivial,
        trivial, trivial, trivial, by simp [UnionType.default]⟩, fun s => ?_⟩
      cases s with
      | never => rfl
      | error => rfl
      | any => rfl
      | unknown => rfl
      | compound w =>
        rw [UnionTypeBuilder.add_compound w]
        on_goal 2 => rfl
        simp [UnionTypeBuilder.combine, UnionType.add, UnionType.merge, UnionType.default,
          LiteralAble.merge_vacant_right, insertList_nil_right]
    | void =>
      refine ⟨_, rfl, ⟨by simp [UnionType.default], by simp [UnionType.default], trivial,
        trivial, trivial, trivial, by simp [UnionType.default]⟩, fun s => ?_⟩
      cases s with
      | never => rfl
      | error => rfl
      | any => rfl
      | unknown => rfl
      | compound w =>
        rw [UnionTypeBuilder.add_compound w]
        on_goal 2 => rfl
        simp [UnionTypeBuilder.combine, UnionType.add, UnionType.merge, UnionType.default,
          LiteralAble.merge_vacant_right, insertList_nil_right]
    | null =>
      refine ⟨_, rfl, ⟨by simp [UnionType.default], by simp [UnionType.default], trivial,
        trivial, trivial, trivial, by simp [UnionType.default]⟩, fun s => ?_⟩
      cases s with
      | never => rfl
      | error => rfl
      | any => rfl
      | unknown => rfl
      | compound w =>
        rw [UnionTypeBuilder.add_compound w]
        on_goal 2 => rfl
        simp [UnionTypeBuilder.combine, UnionType.add, UnionType.merge, UnionType.default,
          LiteralAble.merge_vacant_right, insertList_nil_right]
    | undefined =>
      refine ⟨_, rfl, ⟨by simp [UnionType.default], by simp [UnionType.default], trivial,
        trivial, trivial, trivial, by simp [UnionType.default]⟩, fun s => ?_⟩
      cases s with
      | never => rfl
      | error => rfl
      | any => rfl
      | unknown => rfl
      | compound w =>
        rw [UnionTypeBuilder.add_compound w]
        on_goal 2 => rfl
        simp [UnionTypeBuilder.combine, UnionType.add, UnionType.merge, UnionType.default,
          LiteralAble.merge_vacant_right, insertList_nil_right]
    | string =>
      refine ⟨_, rfl, ⟨by simp [UnionType.default], by simp [UnionType.default], trivial,
        trivial, trivial, trivial, by simp [UnionType.default]⟩, fun s => ?_⟩
      cases s with
      | never => rfl
      | error => rfl
      | any => rfl
      | unknown => rfl
      | compound w =>
        rw [UnionTypeBuilder.add_compound w]
        on_goal 2 => rfl
        simp [UnionTypeBuilder.combine, UnionType.add, UnionType.merge, UnionType.default,
          LiteralAble.merge_vacant_right, LiteralAble.merge_any_right, insertList_nil_right]
    | number =>
      refine ⟨_, rfl, ⟨by simp [UnionType.default], by simp [UnionType.default], trivial,
        trivial, trivial, trivial, by simp [UnionType.default]⟩, fun s => ?_⟩
      cases s with
      | never => rfl
      | error => rfl
      | any => rfl
      | unknown => rfl
      | compound w =>
        rw [UnionTypeBuilder.add_compound w]
        on_goal 2 => rfl
        simp [UnionTypeBuilder.combine, UnionType.add, UnionType.merge, UnionType.default,
          LiteralAble.merge_vacant_right, LiteralAble.merge_any_right, insertList_nil_right]
    | bigint =>
      refine ⟨_, rfl, ⟨by simp [UnionType.default], by simp [UnionType.default], trivial,
        trivial, trivial, trivial, by simp [UnionType.default]⟩, fun s => ?_⟩
      cases s with
      | never => rfl
      | error => rfl
      | any => rfl
      | unknown => rfl
      | compound w =>
        rw [UnionTypeBuilder.add_compound w]
        on_goal 2 => rfl
        simp [UnionTypeBuilder.combine, UnionType.add, UnionType.merge, UnionType.default,
          LiteralAble.merge_vacant_right, LiteralAble.merge_any_right, insertList_nil_right]
    | symbol =>
      refine ⟨_, rfl, ⟨by simp [UnionType.default], by simp [UnionType.default], trivial,
        trivial, trivial, trivial, by simp [UnionType.default]⟩, fun s => ?_⟩
      cases s with
      | never => rfl
      | error => rfl
      | any => rfl
      | unknown => rfl
      | compound w =>
        rw [UnionTypeBuilder.add_compound w]
        on_goal 2 => rfl
        simp [UnionTypeBuilder.combine, UnionType.add, UnionType.merge, UnionType.default,
          LiteralAble.merge_vacant_right, LiteralAble.merge_any_right, insertList_nil_right]
    | boolean =>
      refine ⟨_, rfl, ⟨by simp [UnionType.default], by simp [UnionType.default], trivial,
        trivial, trivial, trivial, by simp [UnionType.default]⟩, fun s => ?_⟩
      cases s with
      | never => rfl
      | error => rfl
      | any => rfl
      | unknown => rfl
      | compound w =>
        rw [UnionTypeBuilder.add_compound w]
        on_goal 2 => rfl
        simp [UnionTypeBuilder.combine, UnionType.add, UnionType.merge, UnionType.default,
          LiteralAble.merge_vacant_right, insertList_nil_right]
    | stringLiteral x =>
      refine ⟨_, rfl, ⟨by simp [UnionType.default], by simp [UnionType.default],
        ⟨by simp, by simp⟩, trivial, trivial, trivial, by
        simp [UnionType.default, LiteralAble.add]⟩, fun s => ?_⟩
      cases s with
      | never => rfl
      | error => rfl
      | any => rfl
      | unknown => rfl
      | compound w =>
        rw [UnionTypeBuilder.add_compound w]
        on_goal 2 => rfl
        simp [UnionTypeBuilder.combine, UnionType.add, UnionType.merge, UnionType.default,
          LiteralAble.merge_vacant_right, LiteralAble.merge_single, insertList_nil_right,
          LiteralAble.add]
    | numericLiteral x =>
      refine ⟨_, rfl, ⟨by simp [UnionType.default], by simp [UnionType.default], trivial,
        ⟨by simp, by simp⟩, trivial, trivial, by
        simp [UnionType.default, LiteralAble.add]⟩, fun s => ?_⟩
      cases s with
      | never => rfl
      | error => rfl
      | any => rfl
      | unknown => rfl
      | compound w =>
        rw [UnionTypeBuilder.add_compound w]
        on_goal 2 => rfl
        simp [UnionTypeBuilder.combine, UnionType.add, UnionType.merge, UnionType.default,
          LiteralAble.merge_vacant_right, LiteralAble.merge_single, insertList_nil_right,
          LiteralAble.add]
    | bigintLiteral x =>
      refine ⟨_, rfl, ⟨by simp [UnionType.default], by simp [UnionType.default], trivial,
        trivial, ⟨by simp, by simp⟩, trivial, by
        simp [UnionType.default, LiteralAble.add]⟩, fun s => ?_⟩
      cases s with
      | never => rfl
      | error => rfl
      | any => rfl
      | unknown => rfl
      | compound w =>
        rw [UnionTypeBuilder.add_compound w]
        on_goal 2 => rfl
        simp [UnionTypeBuilder.combine, UnionType.add, UnionType.merge, UnionType.default,
          LiteralAble.merge_vacant_right, LiteralAble.merge_single, insertList_nil_right,
          LiteralAble.add]
    | uniqueSymbol x =>
      refine ⟨_, rfl, ⟨by simp [UnionType.default], by simp [UnionType.default], trivial,
        trivial, trivial, ⟨by simp, by simp⟩, by
        simp [UnionType.default, LiteralAble.add]⟩, fun s => ?_⟩
      cases s with
      | never => rfl
      | error => rfl
      | any => rfl
      | unknown => rfl
      | compound w =>
        rw [UnionTypeBuilder.add_compound w]
        on_goal 2 => rfl
        simp [UnionTypeBuilder.combine, UnionType.add, UnionType.merge, UnionType.default,
          LiteralAble.merge_vacant_right, LiteralAble.merge_single, insertList_nil_right,
          LiteralAble.add]
    | record i =>
      refine ⟨_, rfl, ⟨by simp [Ty.isComplexMember, hinsert, UnionType.default],
        by simp [hinsert, UnionType.default], trivial,
        trivial, trivial, trivial, by simp [UnionType.default, hinsert]⟩, fun s => ?_⟩
      cases s with
      | never => rfl
      | error => rfl
      | any => rfl
      | unknown => rfl
      | compound w =>
        rw [UnionTypeBuilder.add_compound w]
        on_goal 2 => rfl
        simp [UnionTypeBuilder.combine, UnionType.add, UnionType.merge, UnionType.default,
          LiteralAble.merge_vacant_right, insertList_cons, insertList_nil_right,
          show hinsert ([] : List Ty) (Ty.record i) = [Ty.record i] from rfl]
    | function i =>
      refine ⟨_, rfl, ⟨by simp [Ty.isComplexMember, hinsert, UnionType.default],
        by simp [hinsert, UnionType.default], trivial,
        trivial, trivial, trivial, by simp [UnionType.default, hinsert]⟩, fun s => ?_⟩
      cases s with
      | never => rfl
      | error => rfl
      | any => rfl
      | unknown => rfl
      | compound w =>
        rw [UnionTypeBuilder.add_compound w]
        on_goal 2 => rfl
        simp [UnionTypeBuilder.combine, UnionType.add, UnionType.merge, UnionType.default,
          LiteralAble.merge_vacant_right, insertList_cons, insertList_nil_right,
          show hinsert ([] : List Ty) (Ty.function i) = [Ty.function i] from rfl]
    | constructor i =>
      refine ⟨_, rfl, ⟨by simp [Ty.isComplexMember, hinsert, UnionType.default],
        by simp [hinsert, UnionType.default], trivial,
        trivial, trivial, trivial, by simp [UnionType.default, hinsert]⟩, fun s => ?_⟩
      cases s with
      | never => rfl
      | error => rfl
      | any => rfl
      | unknown => rfl
      | compound w =>
        rw [UnionTypeBuilder.add_compound w]
        on_goal 2 => rfl
        simp [UnionTypeBuilder.combine, UnionType.add, UnionType.merge, UnionType.default,
          LiteralAble.merge_vacant_right, insertList_cons, insertList_nil_right,
          show hinsert ([] : List Ty) (Ty.constructor i) = [Ty.constructor i] from rfl]
    | interface i =>
      refine ⟨_, rfl, ⟨by simp [Ty.isComplexMember, hinsert, UnionType.default],
        by simp [hinsert, UnionType.default], trivial,
        trivial, trivial, trivial, by simp [UnionType.default, hinsert]⟩, fun s => ?_⟩
      cases s with
      | never => rfl
      | error => rfl
      | any => rfl
      | unknown => rfl
      | compound w =>
        rw [UnionTypeBuilder.add_compound w]
        on_goal 2 => rfl
        simp [UnionTypeBuilder.combine, UnionType.add, UnionType.merge, UnionType.default,
          LiteralAble.merge_vacant_right, insertList_cons, insertList_nil_right,
          show hinsert ([] : List Ty) (Ty.interface i) = [Ty.interface i] from rfl]
    | intersection i =>
      refine ⟨_, rfl, ⟨by simp [Ty.isComplexMember, hinsert, UnionType.default],
        by simp [hinsert, UnionType.default], trivial,
        trivial, trivial, trivial, by simp [UnionType.default, hinsert]⟩, fun s => ?_⟩
      cases s with
      | never => rfl
      | error => rfl
      | any => rfl
      | unknown => rfl
      | compound w =>
        rw [UnionTypeBuilder.add_compound w]
        on_goal 2 => rfl
        simp [UnionTypeBuilder.combine, UnionType.add, UnionType.merge, UnionType.default,
          LiteralAble.merge_vacant_right, insertList_cons, insertList_nil_right,
          show hinsert ([] : List Ty) (Ty.intersection i) = [Ty.intersection i] from rfl]
    | unresolved i =>
      refine ⟨_, rfl, ⟨by simp [UnionType.default], by simp [UnionType.default], trivial,
        trivial, trivial, trivial, by simp [UnionType.default]⟩, fun s => ?_⟩
      cases s with
      | never => rfl
      | error => rfl
      | any => rfl
      | unknown => rfl
      | compound w =>
        rw [UnionTypeBuilder.add_compound w]
        on_goal 2 => rfl
        simp [UnionTypeBuilder.combine, UnionType.add, UnionType.merge, UnionType.default,
          LiteralAble.merge_vacant_right, insertList_nil_right]

theorem UnionTypeBuilder.addP (t : Ty) : UnionTypeBuilder.AddP t :=
  UnionTypeBuilder.add_master (sizeOf t) t (Nat.le_refl _)

theorem UnionTypeBuilder.addList_master (l : List Ty) :
    ∃ d, UnionTypeBuilder.never.addList l = some d ∧ d.Ok ∧
      ∀ s : UnionTypeBuilder, s.addList l = some (s.combine d) := by
  exact addList_master_of (fun t _ => addP t)

/-- Totality: `UnionTypeBuilder::add` never hits the modelled `unreachable!` of
`UnionType::add`: the builder pre-filters every member kind the compound
cannot store. -/
theorem UnionTypeBuilder.add_isSome (s : UnionTypeBuilder) (t : Ty) :
    (s.add t).isSome := by
  obtain ⟨d, _, _, h3⟩ := addP t
  rw [h3 s]
  rfl

theorem UnionTypeBuilder.addList_isSome (s : UnionTypeBuilder) (l : List Ty) :
    (s.addList l).isSome := by
  obtain ⟨d, _, _, h3⟩ := addList_master l
  rw [h3 s]
  rfl

theorem UnionTypeBuilder.addList_ok {l : List Ty} {d : UnionTypeBuilder}
    (h : UnionTypeBuilder.never.addList l = some d) : d.Ok := by
  obtain ⟨d', h1, h2, _⟩ := addList_master l
  rw [h1] at h
  exact (Option.some.injEq .. ▸ h : d' = d) ▸ h2

theorem UnionTypeBuilder.addList_lit_string (s : List String) (W : UnionType) :
    (UnionTypeBuilder.compound W).addList (s.map Ty.stringLiteral) =
      some (.compound { W with string := s.foldl LiteralAble.add W.string }) := by
  induction s generalizing W with
  | nil => rfl
  | cons x xs ih =>
    rw [List.map_cons, addList_cons]
    exact ih { W with string := W.string.add x }

theorem UnionTypeBuilder.addList_lit_number (s : List Int) (W : UnionType) :
    (UnionTypeBuilder.compound W).addList (s.map Ty.numericLiteral) =
      some (.compound { W with number := s.foldl LiteralAble.add W.number }) := by
  induction s generalizing W with
  | nil => rfl
  | cons x xs ih =>
    rw [List.map_cons, addList_cons]
    exact ih { W with number := W.number.add x }

theorem UnionTypeBuilder.addList_lit_bigint (s : List String) (W : UnionType) :
    (UnionTypeBuilder.compound W).addList (s.map Ty.bigintLiteral) =
      some (.compound { W with bigint := s.foldl LiteralAble.add W.bigint }) := by
  induction s generalizing W with
  | nil => rfl
  | cons x xs ih =>
    rw [List.map_cons, addList_cons]
    exact ih { W with bigint := W.bigint.add x }

theorem UnionTypeBuilder.addList_lit_symbol (s : List Nat) (W : UnionType) :
    (UnionTypeBuilder.compound W).addList (s.map Ty.uniqueSymbol) =
      some (.compound { W with symbol := s.foldl LiteralAble.add W.symbol }) := by
  induction s generalizing W with
  | nil => rfl
  | cons x xs ih =>
    rw [List.map_cons, addList_cons]
    exact ih { W with symbol := W.symbol.add x }

theorem UnionTypeBuilder.addList_part_string {la : LiteralAble String} (hla : la.Ok)
    (W : UnionType) :
    (UnionTypeBuilder.compound W).addList (la.for_each Ty.string Ty.stringLiteral) =
      some (.compound { W with string := W.string.merge la }) := by
  cases la with
  | vacant => rw [LiteralAble.merge_vacant_right]; rfl
  | any => rw [LiteralAble.merge_any_right]; rfl
  | literals s =>
    rw [LiteralAble.for_each, addList_lit_string, LiteralAble.foldl_add _ s hla.1 hla.2]

theorem UnionTypeBuilder.addList_part_number {la : LiteralAble Int} (hla : la.Ok)
    (W : UnionType) :
    (UnionTypeBuilder.compound W).addList (la.for_each Ty.number Ty.numericLiteral) =
      some (.compound { W with number := W.number.merge la }) := by
  cases la with
  | vacant => rw [LiteralAble.merge_vacant_right]; rfl
  | any => rw [LiteralAble.merge_any_right]; rfl
  | literals s =>
    rw [LiteralAble.for_each, addList_lit_number, LiteralAble.foldl_add _ s hla.1 hla.2]

theorem UnionTypeBuilder.addList_part_bigint {la : LiteralAble String} (hla : la.Ok)
    (W : UnionType) :
    (UnionTypeBuilder.compound W).addList (la.for_each Ty.bigint Ty.bigintLiteral) =
      some (.compound { W with bigint := W.bigint.merge la }) := by
  cases la with
  | vacant => rw [LiteralAble.merge_vacant_right]; rfl
  | any => rw [LiteralAble.merge_any_right]; rfl
  | literals s =>
    rw [LiteralAble.for_each, addList_lit_bigint, LiteralAble.foldl_add _ s hla.1 hla.2]

theorem UnionTypeBuilder.addList_part_symbol {la : LiteralAble Nat} (hla : la.Ok)
    (W : UnionType) :
    (UnionTypeBuilder.compound W).addList (la.for_each Ty.symbol Ty.uniqueSymbol) =
      some (.compound { W with symbol := W.symbol.merge la }) := by
  cases la with
  | vacant => rw [LiteralAble.merge_vacant_right]; rfl
  | any => rw [LiteralAble.merge_any_right]; rfl
  | literals s =>
    rw [LiteralAble.for_each, addList_lit_symbol, LiteralAble.foldl_add _ s hla.1 hla.2]

theorem UnionTypeBuilder.addList_part_complex {l : List Ty}
    (hl : ∀ t ∈ l, t.isComplexMember = true) (W : UnionType) :
    (UnionTypeBuilder.compound W).addList l =
      some (.compound { W with complex := insertList W.complex l }) := by
  induction l generalizing W with
  | nil => rfl
  | cons c l ih =>
    have hc := hl c (List.mem_cons_self c l)
    have htl : ∀ t ∈ l, t.isComplexMember = true :=
      fun t ht => hl t (List.mem_cons_of_mem c ht)
    rw [insertList_cons]
    cases c with
    | record i => exact (addList_cons ..).trans (ih htl { W with complex := hinsert W.complex (Ty.record i) })
    | function i => exact (addList_cons ..).trans (ih htl { W with complex := hinsert W.complex (Ty.function i) })
    | constructor i => exact (addList_cons ..).trans (ih htl { W with complex := hinsert W.complex (Ty.constructor i) })
    | interface i => exact (addList_cons ..).trans (ih htl { W with complex := hinsert W.complex (Ty.interface i) })
    | intersection i => exact (addList_cons ..).trans (ih htl { W with complex := hinsert W.complex (Ty.intersection i) })
    | never => simp [Ty.isComplexMember] at hc
    | error => simp [Ty.isComplexMember] at hc
    | any => simp [Ty.isComplexMember] at hc
    | unknown => simp [Ty.isComplexMember] at hc
    | object => simp [Ty.isComplexMember] at hc
    | void => simp [Ty.isComplexMember] at hc
    | null => simp [Ty.isComplexMember] at hc
    | undefined => simp [Ty.isComplexMember] at hc
    | string => simp [Ty.isComplexMember] at hc
    | number => simp [Ty.isComplexMember] at hc
    | bigint => simp [Ty.isComplexMember] at hc
    | symbol => simp [Ty.isComplexMember] at hc
    | boolean => simp [Ty.isComplexMember] at hc
    | stringLiteral x => simp [Ty.isComplexMember] at hc
    | numericLiteral x => simp [Ty.isComplexMember] at hc
    | bigintLiteral x => simp [Ty.isComplexMember] at hc
    | uniqueSymbol x => simp [Ty.isComplexMember] at hc
    | booleanLiteral x => simp [Ty.isComplexMember] at hc
    | union u => simp [Ty.isComplexMember] at hc
    | nspace i => simp [Ty.isComplexMember] at hc
    | generic i => simp [Ty.isComplexMember] at hc
    | intrinsic i => simp [Ty.isComplexMember] at hc
    | inst r => simp [Ty.isComplexMember] at hc
    | unresolved i => simp [Ty.isComplexMember] at hc

theorem UnionTypeBuilder.addList_part_unres (l : List Nat) (W : UnionType) :
    (UnionTypeBuilder.compound W).addList (l.map Ty.unresolved) =
      some (.compound { W with unresolved := W.unresolved ++ l }) := by
  induction l generalizing W with
  | nil => simp; rfl
  | cons i l ih =>
    rw [List.map_cons, addList_cons,
      show (UnionTypeBuilder.compound W).add (Ty.unresolved i) =
        some (.compound { W with unresolved := W.unresolved ++ [i] }) from rfl,
      Option.some_bind, ih]
    simp

theorem UnionTypeBuilder.addList_part_object (b : Bool) (W : UnionType) :
    (UnionTypeBuilder.compound W).addList (if b then [Ty.object] else []) =
      some (.compound { W with object := W.object || b }) := by
  cases b with
  | false => simp; rfl
  | true => simp; rfl

theorem UnionTypeBuilder.addList_part_void (b : Bool) (W : UnionType) :
    (UnionTypeBuilder.compound W).addList (if b then [Ty.void] else []) =
      some (.compound { W with void := W.void || b }) := by
  cases b with
  | false => simp; rfl
  | true => simp; rfl

theorem UnionTypeBuilder.addList_part_null (b : Bool) (W : UnionType) :
    (UnionTypeBuilder.compound W).addList (if b then [Ty.null] else []) =
      some (.compound { W with null := W.null || b }) := by
  cases b with
  | false => simp; rfl
  | true => simp; rfl

theorem UnionTypeBuilder.addList_part_undefined (b : Bool) (W : UnionType) :
    (UnionTypeBuilder.compound W).addList (if b then [Ty.undefined] else []) =
      some (.compound { W with undefined := W.undefined || b }) := by
  cases b with
  | false => simp; rfl
  | true => simp; rfl

theorem UnionTypeBuilder.addList_part_boolean (p : Bool × Bool) (W : UnionType) :
    (UnionTypeBuilder.compound W).addList
      (match p with
        | (true, true) => [Ty.boolean]
        | (true, false) => [Ty.booleanLiteral true]
        | (false, true) => [Ty.booleanLiteral false]
        | (false, false) => []) =
      some (.compound
        { W with boolean := (W.boolean.1 || p.1, W.boolean.2 || p.2) }) := by
  obtain ⟨b1, b2⟩ := p
  cases b1 <;> cases b2 <;> simp <;> rfl

/-- Replaying a well-formed compound's `for_each` enumeration onto another
compound merges the two componentwise. -/
theorem UnionTypeBuilder.addList_for_each_compound (W : UnionType) {V : UnionType}
    (hV : V.Ok) :
    (UnionTypeBuilder.compound W).addList (UnionType.for_each V) =
      some (.compound (W.merge V)) := by
  have hs := fun W' => addList_part_string hV.2.2.1 W'
  have hn := fun W' => addList_part_number hV.2.2.2.1 W'
  have hb := fun W' => addList_part_bigint hV.2.2.2.2.1 W'
  have hy := fun W' => addList_part_symbol hV.2.2.2.2.2.1 W'
  have ho := fun W' => addList_part_object V.object W'
  have hv := fun W' => addList_part_void V.void W'
  have hnl := fun W' => addList_part_null V.null W'
  have hu := fun W' => addList_part_undefined V.undefined W'
  have hbo := fun W' => addList_part_boolean V.boolean W'
  have hc := fun W' => addList_part_complex hV.1 W'
  have hur := fun W' => addList_part_unres V.unresolved W'
  rw [UnionType.for_each]
  simp only [addList_append, Option.bind_assoc]
  rw [hs W]
  simp only [Option.some_bind]
  rw [hn _]
  simp only [Option.some_bind]
  rw [hb _]
  simp only [Option.some_bind]
  rw [hy _]
  simp only [Option.some_bind]
  rw [ho _]
  simp only [Option.some_bind]
  rw [hv _]
  simp only [Option.some_bind]
  rw [hnl _]
  simp only [Option.some_bind]
  rw [hu _]
  simp only [Option.some_bind]
  rw [hbo _]
  simp only [Option.some_bind]
  rw [hc _]
  simp only [Option.some_bind]
  rw [hur _]
  rfl

/-- Round trip: feeding a well-formed compound's `for_each` enumeration back
through a fresh builder reproduces exactly that compound. -/
theorem UnionTypeBuilder.addList_for_each_never {V : UnionType} (hV : V.Ok) :
    UnionTypeBuilder.never.addList (UnionType.for_each V) = some (.compound V) := by
  obtain ⟨D, hD1, hD2, hD3⟩ := addList_master (UnionType.for_each V)
  have h1 := addList_for_each_compound UnionType.default hV
  have h2 := hD3 (.compound UnionType.default)
  rw [h1] at h2
  have hmV : UnionType.default.merge V = V := UnionType.merge_default_left hV.2.1
  cases D with
  | never =>
    rw [show (UnionTypeBuilder.compound UnionType.default).combine .never =
        .compound UnionType.default from rfl] at h2
    simp only [Option.some.injEq, UnionTypeBuilder.compound.injEq] at h2
    rw [hmV] at h2
    exact absurd h2 hV.2.2.2.2.2.2
  | error => simp [UnionTypeBuilder.combine] at h2
  | any => simp [UnionTypeBuilder.combine] at h2
  | unknown => simp [UnionTypeBuilder.combine] at h2
  | compound Y =>
    have hmY : UnionType.default.merge Y = Y := UnionType.merge_default_left hD2.2.1
    rw [show (UnionTypeBuilder.compound UnionType.default).combine (.compound Y) =
        .compound (UnionType.default.merge Y) from rfl, hmY, hmV] at h2
    simp only [Option.some.injEq, UnionTypeBuilder.compound.injEq] at h2
    rw [hD1, h2]

theorem Analyzer.into_union_eq_build (a : Analyzer) (l : List Ty) (h : 2 ≤ l.length) :
    a.into_union l = (UnionTypeBuilder.never.addList l).map UnionTypeBuilder.build := by
  cases l with
  | nil => simp at h
  | cons t1 l1 =>
    cases l1 with
    | nil => simp at h
    | cons t2 l2 => rfl

theorem UnionTypeBuilder.build_eq_union {s : UnionTypeBuilder} {V : UnionType}
    (h : s.build = Ty.union V) : s = .compound V := by
  cases s <;> simp [UnionTypeBuilder.build] at h
  rw [h]

theorem Analyzer.into_union_union {a : Analyzer} {l : List Ty} {V : UnionType}
    (hlen : 2 ≤ l.length) (h : a.into_union l = some (Ty.union V)) :
    UnionTypeBuilder.never.addList l = some (.compound V) := by
  rw [into_union_eq_build a l hlen] at h
  obtain ⟨d, hd1, _, _⟩ := UnionTypeBuilder.addList_master l
  rw [hd1] at h ⊢
  simp only [Option.map_some', Option.some.injEq] at h ⊢
  exact UnionTypeBuilder.build_eq_union h

theorem UnionType.mem_for_each_not_union {V : UnionType} (hV : V.Ok) :
    ∀ t ∈ UnionType.for_each V, ∀ w : UnionType, t ≠ Ty.union w := by
  intro t ht w
  rw [UnionType.for_each] at ht
  simp only [List.mem_append] at ht
  rcases ht with ((((((((((h | h) | h) | h) | h) | h) | h) | h) | h) | h) | h)
  · rcases LiteralAble.for_each_mem_sizeOf h with rfl | ⟨x, _, rfl⟩ <;> simp
  · rcases LiteralAble.for_each_mem_sizeOf h with rfl | ⟨x, _, rfl⟩ <;> simp
  · rcases LiteralAble.for_each_mem_sizeOf h with rfl | ⟨x, _, rfl⟩ <;> simp
  · rcases LiteralAble.for_each_mem_sizeOf h with rfl | ⟨x, _, rfl⟩ <;> simp
  · split at h <;> simp_all
  · split at h <;> simp_all
  · split at h <;> simp_all
  · split at h <;> simp_all
  · rcases hb : V.boolean with ⟨b1, b2⟩
    rw [hb] at h
    cases b1 <;> cases b2 <;> simp_all
  · have := hV.1 t h
    cases t <;> simp_all [Ty.isComplexMember]
  · simp only [List.mem_map] at h
    obtain ⟨i, _, rfl⟩ := h
    simp

/-- A concrete analyzer whose property resolver is the identity on the member
(used for concrete witnesses). -/
def idAnalyzer : Analyzer := ⟨fun ty _ => ty⟩

/-- A concrete analyzer whose property resolver distinguishes `StringLiteral`
members from the widened `String` (used for the C6 counterexample). -/
def propAnalyzer : Analyzer :=
  ⟨fun ty _ =>
    match ty with
    | .stringLiteral _ => Ty.number
    | .string => Ty.boolean
    | _ => Ty.error⟩

/-- Claim C5: `into_union` of an empty member list returns `Undefined` (the
documented deviation from the lattice bottom `Never`), and `into_union` of
exactly one member returns that member unchanged, with no `Union` wrapper, for
every member value. -/
theorem claim_c5 :
    (∀ a : Analyzer, a.into_union [] = some Ty.undefined) ∧
    (∀ (a : Analyzer) (x : Ty), a.into_union [x] = some x) :=
  ⟨fun _ => rfl, fun _ _ => rfl⟩

/-- Claim C10: `get_union_property` applied to a `UnionType` whose `for_each`
produces no members returns `Ty::Never` (the fresh builder stays `Never` and
`build` maps it to `Never`) — in contrast to `into_union` of zero members,
which returns `Undefined`. -/
theorem claim_c10 :
    (∀ (a : Analyzer) (u : UnionType) (k : Nat), UnionType.for_each u = [] →
      a.get_union_property u k = some Ty.never) ∧
    (∀ a : Analyzer, a.into_union [] = some Ty.undefined) := by
  refine ⟨fun a u k h => ?_, fun _ => rfl⟩
  unfold Analyzer.get_union_property
  rw [h]
  rfl

/-- Witness for claim C10 at the all-empty default `UnionType`. -/
theorem claim_c10_witness :
    idAnalyzer.get_union_property UnionType.default 0 = some Ty.never :=
  claim_c10.1 idAnalyzer UnionType.default 0 rfl

/-- Claim C9 is false as stated: a `Namespace` member reaching
`UnionType::add` is stored in the complex set (the `Ty::Namespace(_)` pattern
is part of the complex-shape arm), not treated as an invariant violation. -/
theorem claim_c9_counterexample :
    UnionType.default.add (Ty.nspace 0) =
      some { UnionType.default with complex := [Ty.nspace 0] } ∧
    Ty.nspace 0 ∈
      ({ UnionType.default with complex := [Ty.nspace 0] } : UnionType).complex := by
  exact ⟨rfl, by simp⟩

/-- Claim C9 (amended): `UnionType::add` fails fast (hits the modelled
`unreachable!`, i.e. returns `none`) exactly for `Never`, `Error`, `Any`,
`Unknown`, `Union`, `Instance`, `Generic` and `Intrinsic` members; every other
kind — including `Namespace`, which lands in the complex set — is stored. -/
theorem claim_c9_amended :
    ∀ (u : UnionType) (t : Ty),
      u.add t = none ↔
        (t = .never ∨ t = .error ∨ t = .any ∨ t = .unknown ∨
          (∃ v, t = .union v) ∨ (∃ r, t = .inst r) ∨ (∃ i, t = .generic i) ∨
          (∃ i, t = .intrinsic i)) := by
  intro u t
  cases t
  case booleanLiteral b => cases b <;> simp [UnionType.add]
  all_goals simp [UnionType.add]

/-- The enumeration order of `for_each` as claim C8 words it: the string,
number, bigint, symbol literal-able expansions; then the `object`, `void`,
`null`, `undefined` flags; then the boolean reconstruction mapping
`(true, true)` to `Boolean`, `(true, false)` to `BooleanLiteral(true)`,
`(false, true)` to `BooleanLiteral(false)` and `(false, false)` to nothing;
then the complex set; then the unresolved list in insertion order. -/
def UnionType.for_each_spec (u : UnionType) : List Ty :=
  (match u.string with
    | .vacant => []
    | .any => [Ty.string]
    | .literals set => set.map Ty.stringLiteral) ++
  (match u.number with
    | .vacant => []
    | .any => [Ty.number]
    | .literals set => set.map Ty.numericLiteral) ++
  (match u.bigint with
    | .vacant => []
    | .any => [Ty.bigint]
    | .literals set => set.map Ty.bigintLiteral) ++
  (match u.symbol with
    | .vacant => []
    | .any => [Ty.symbol]
    | .literals set => set.map Ty.uniqueSymbol) ++
  (if u.object then [Ty.object] else []) ++
  (if u.void then [Ty.void] else []) ++
  (if u.null then [Ty.null] else []) ++
  (if u.undefined then [Ty.undefined] else []) ++
  (match u.boolean with
    | (true, true) => [Ty.boolean]
    | (true, false) => [Ty.booleanLiteral true]
    | (false, true) => [Ty.booleanLiteral false]
    | (false, false) => []) ++
  u.complex ++
  u.unresolved.map Ty.unresolved

/-- Claim C8: `UnionType::for_each` enumerates members in the deterministic
order claim C8 describes (string, number, bigint, symbol expansions; the
`object`/`void`/`null`/`undefined` flags; the boolean reconstruction; the
complex set; the unresolved list in insertion order), and unresolved members
are appended without deduplication. -/
theorem claim_c8 :
    (∀ u : UnionType, UnionType.for_each u = UnionType.for_each_spec u) ∧
    (∀ (u : UnionType) (t : Nat),
      u.add (.unresolved t) = some { u with unresolved := u.unresolved ++ [t] }) := by
  constructor
  · intro u
    obtain ⟨us, un, ub, usy, uo, uv, unl, uu, ⟨b1, b2⟩, uc, uur⟩ := u
    rw [UnionType.for_each, UnionType.for_each_spec]
    cases us <;> cases un <;> cases ub <;> cases usy <;> cases b1 <;> cases b2 <;> rfl
  · intro u t
    rfl

/-- The member kinds whose presence escalates `UnionTypeBuilder::add` to the
terminal `Error` state. -/
def Ty.isEscalating : Ty → Bool
  | .error | .generic _ | .intrinsic _ | .nspace _ => true
  | _ => false

/-- Claim C1 is false as stated: when `Any` precedes the escalating member,
the builder is already in its absorbing `Any` state, so
`into_union([Any, Error])` is `Any`, not `Error`. -/
theorem claim_c1_counterexample :
    idAnalyzer.into_union [Ty.any, Ty.error] = some Ty.any ∧
    idAnalyzer.into_union [Ty.any, Ty.error] ≠ some Ty.error := by
  exact ⟨rfl, by decide⟩

/-- Claim C1 (amended): `into_union` of a member list with at least two
members that contains one of `{Error, Generic, Intrinsic, Namespace}` yields
`Error`, provided the builder state reached by the members preceding the first
such member is not already the absorbing `Any` or `Unknown`. -/
theorem claim_c1_amended :
    ∀ (a : Analyzer) (pre : List Ty) (e : Ty) (post : List Ty),
      e.isEscalating = true →
      UnionTypeBuilder.never.addList pre ≠ some .any →
      UnionTypeBuilder.never.addList pre ≠ some .unknown →
      2 ≤ (pre ++ e :: post).length →
      a.into_union (pre ++ e :: post) = some Ty.error := by
  intro a pre e post he hpa hpu hlen
  rw [a.into_union_eq_build _ hlen, UnionTypeBuilder.addList_append]
  obtain ⟨d, hd1, _, _⟩ := UnionTypeBuilder.addList_master pre
  rw [hd1]
  simp only [Option.some_bind]
  have hda : d ≠ .any := fun h => hpa (h ▸ hd1)
  have hdu : d ≠ .unknown := fun h => hpu (h ▸ hd1)
  have hde : d.add e = some .error := by
    cases d with
    | never => cases e <;> first | rfl | simp [Ty.isEscalating] at he
    | error => cases e <;> rfl
    | compound w => cases e <;> first | rfl | simp [Ty.isEscalating] at he
    | any => exact absurd rfl hda
    | unknown => exact absurd rfl hdu
  rw [UnionTypeBuilder.addList_cons, hde]
  simp only [Option.some_bind]
  rw [UnionTypeBuilder.addList_error]
  rfl

/-- Witness for claim C1 (amended): an `Error` member after a `String` member
and before a `Number` member makes the whole union `Error`. -/
theorem claim_c1_witness :
    idAnalyzer.into_union ([Ty.string] ++ Ty.error :: [Ty.number]) = some Ty.error :=
  claim_c1_amended idAnalyzer [Ty.string] Ty.error [Ty.number] rfl (by decide)
    (by decide) (by decide)

/-- Claim C4 is false as stated: `into_union([Never, X])` runs the builder and
wraps the surviving member in a `Union`, while `into_union([X])` is the
singleton shortcut returning `X` itself, so the two differ for `X = String`. -/
theorem claim_c4_counterexample :
    idAnalyzer.into_union [Ty.never, Ty.string] ≠ idAnalyzer.into_union [Ty.string] ∧
    idAnalyzer.into_union [Ty.never, Ty.string] =
      some (Ty.union { UnionType.default with string := .any }) ∧
    idAnalyzer.into_union [Ty.string] = some Ty.string := by
  refine ⟨by decide, rfl, rfl⟩

/-- Claim C4 (amended): `Never` is the identity of the builder: prepending a
`Never` member to any list of at least two members leaves `into_union`
unchanged (for a single other member the singleton shortcut skips the builder,
so the unwrapped member and the built one-member union differ). -/
theorem claim_c4_amended :
    ∀ (a : Analyzer) (l : List Ty), 2 ≤ l.length →
      a.into_union (Ty.never :: l) = a.into_union l := by
  intro a l h
  rw [a.into_union_eq_build l h,
    a.into_union_eq_build (Ty.never :: l) (by simp; omega),
    UnionTypeBuilder.addList_cons, UnionTypeBuilder.add_never_right]
  rfl

/-- Witness for claim C4 (amended) at `l = [String, Number]`. -/
theorem claim_c4_witness :
    idAnalyzer.into_union [Ty.never, Ty.string, Ty.number] =
      idAnalyzer.into_union [Ty.string, Ty.number] :=
  claim_c4_amended idAnalyzer [Ty.string, Ty.number] (by decide)

/-- Claim C3: absorbing states are fixed points — a `LiteralAble` that is
`Any` is unchanged by any further literal add; a `UnionTypeBuilder` in
`Error`, `Any` or `Unknown` is unchanged by any further `add`; and between the
top-like values `Any` and `Unknown`, whichever reaches the builder first
determines the built result while the other is ignored. -/
theorem claim_c3 :
    (∀ (L : Type) (d : DecidableEq L) (x : L),
      @LiteralAble.add L d .any x = .any) ∧
    (∀ t : Ty,
      UnionTypeBuilder.error.add t = some .error ∧
      UnionTypeBuilder.any.add t = some .any ∧
      UnionTypeBuilder.unknown.add t = some .unknown) ∧
    (∀ (s : UnionTypeBuilder) (l : List Ty),
      s ≠ .error → s ≠ .any → s ≠ .unknown →
      (s.add Ty.any).bind (fun s' => (s'.addList l).map (·.build)) = some Ty.any ∧
      (s.add Ty.unknown).bind (fun s' => (s'.addList l).map (·.build)) =
        some Ty.unknown) := by
  refine ⟨fun L d x => rfl,
    fun t => ⟨UnionTypeBuilder.add_error_left t, UnionTypeBuilder.add_any_left t,
      UnionTypeBuilder.add_unknown_left t⟩,
    fun s l h1 h2 h3 => ?_⟩
  have ha : s.add Ty.any = some .any := by
    cases s with
    | never => rfl
    | compound w => rfl
    | error => exact absurd rfl h1
    | any => exact absurd rfl h2
    | unknown => exact absurd rfl h3
  have hu : s.add Ty.unknown = some .unknown := by
    cases s with
    | never => rfl
    | compound w => rfl
    | error => exact absurd rfl h1
    | any => exact absurd rfl h2
    | unknown => exact absurd rfl h3
  rw [ha, hu]
  simp only [Option.some_bind]
  rw [UnionTypeBuilder.addList_any, UnionTypeBuilder.addList_unknown]
  exact ⟨rfl, rfl⟩

/-- Witness for claim C3: from the fresh builder, `Any` first ignores a later
`Unknown`, and `Unknown` first ignores a later `Any`. -/
theorem claim_c3_witness :
    (UnionTypeBuilder.never.add Ty.any).bind
      (fun s' => (s'.addList [Ty.unknown]).map (·.build)) = some Ty.any ∧
    (UnionTypeBuilder.never.add Ty.unknown).bind
      (fun s' => (s'.addList [Ty.any]).map (·.build)) = some Ty.unknown :=
  ⟨(claim_c3.2.2 .never [Ty.unknown] (by decide) (by decide) (by decide)).1,
   (claim_c3.2.2 .never [Ty.any] (by decide) (by decide) (by decide)).2⟩

/-- Claim C2: unions are flattened eagerly — a canonical `UnionType` (one
produced by the builder, i.e. by `into_union` on two or more members) never
contains a `Ty::Union` as a member, and for a nested union
`U = A ∪ (B ∪ C)` the member list `[A, B ∪ C]` produces through `into_union`
the same canonical result as `into_union([A, B, C])`. -/
theorem claim_c2 :
    (∀ (a : Analyzer) (l : List Ty) (U : UnionType), 2 ≤ l.length →
      a.into_union l = some (Ty.union U) →
      ∀ t ∈ UnionType.for_each U, ∀ w : UnionType, t ≠ Ty.union w) ∧
    (∀ (a : Analyzer) (A B C : Ty) (V : UnionType),
      a.into_union [B, C] = some (Ty.union V) →
      a.into_union [A, Ty.union V] = a.into_union [A, B, C]) := by
  constructor
  · intro a l U hlen h t ht w
    exact UnionType.mem_for_each_not_union
      (UnionTypeBuilder.addList_ok (a.into_union_union hlen h)) t ht w
  · intro a A B C V h
    have hBC : UnionTypeBuilder.never.addList [B, C] = some (.compound V) :=
      a.into_union_union (by simp) h
    have hVOk : V.Ok := UnionTypeBuilder.addList_ok hBC
    obtain ⟨dA, hA1, _, _⟩ := UnionTypeBuilder.addP A
    obtain ⟨D, hD1, _, hD3⟩ := UnionTypeBuilder.addList_master (UnionType.for_each V)
    have hDV : D = .compound V := by
      have := hD1.symm.trans (UnionTypeBuilder.addList_for_each_never hVOk)
      simpa using this
    obtain ⟨D2, hD21, _, hD23⟩ := UnionTypeBuilder.addList_master [B, C]
    have hD2V : D2 = .compound V := by
      have := hD21.symm.trans hBC
      simpa using this
    rw [a.into_union_eq_build [A, Ty.union V] (by simp),
      a.into_union_eq_build [A, B, C] (by simp),
      show ([A, Ty.union V] : List Ty) = [A] ++ [Ty.union V] from rfl,
      show ([A, B, C] : List Ty) = [A] ++ [B, C] from rfl,
      UnionTypeBuilder.addList_append, UnionTypeBuilder.addList_append,
      show UnionTypeBuilder.never.addList [A] = some dA from by
        rw [UnionTypeBuilder.addList_cons, hA1]; rfl]
    simp only [Option.some_bind]
    have hL : dA.addList [Ty.union V] = some (dA.combine (.compound V)) := by
      rw [UnionTypeBuilder.addList_cons, UnionTypeBuilder.add_union_eq_for_each,
        hD3 dA, hDV]
      rfl
    have hR : dA.addList [B, C] = some (dA.combine (.compound V)) := by
      rw [hD23 dA, hD2V]
    rw [hL, hR]

/-- Witness for claim C2 at `A = Null`, `B = StringLiteral "a"`, `C = Number`. -/
theorem claim_c2_witness :
    idAnalyzer.into_union [Ty.null,
      Ty.union { UnionType.default with string := .literals ["a"], number := .any }] =
    idAnalyzer.into_union [Ty.null, Ty.stringLiteral "a", Ty.number] :=
  claim_c2.2 idAnalyzer Ty.null (Ty.stringLiteral "a") Ty.number
    { UnionType.default with string := .literals ["a"], number := .any } (by decide)

theorem UnionTypeBuilder.addList_eq_foldlM (l : List Ty) (s : UnionTypeBuilder) :
    s.addList l = l.foldlM (fun s' t => s'.add t) s := by
  induction l generalizing s with
  | nil => rfl
  | cons t l ih =>
    rw [addList_cons, List.foldlM_cons]
    cases s.add t with
    | none => rfl
    | some s' => exact ih s'

theorem Analyzer.get_union_property_eq (a : Analyzer) (u : UnionType) (k : Nat) :
    a.get_union_property u k =
      (UnionTypeBuilder.never.addList
        ((UnionType.for_each u).map (fun t => a.get_property t k))).map
        UnionTypeBuilder.build := by
  unfold Analyzer.get_union_property
  rw [UnionTypeBuilder.addList_eq_foldlM]
  congr 1
  generalize UnionType.for_each u = l
  generalize UnionTypeBuilder.never = s
  induction l generalizing s with
  | nil => rfl
  | cons t l ih =>
    rw [List.map_cons, List.foldlM_cons, List.foldlM_cons]
    cases s.add (a.get_property t k) with
    | none => rfl
    | some s' => exact ih s'

/-- Claim C6 is false as stated: the canonical union collapses
`StringLiteral "a"` and `String` into the single widened member `String`, so a
resolver that distinguishes the two breaks the distribution equation. -/
theorem claim_c6_counterexample :
    propAnalyzer.into_union [Ty.stringLiteral "a", Ty.string] =
      some (Ty.union { UnionType.default with string := .any }) ∧
    propAnalyzer.get_union_property { UnionType.default with string := .any } 0 ≠
      propAnalyzer.into_union
        [propAnalyzer.get_property (Ty.stringLiteral "a") 0,
         propAnalyzer.get_property Ty.string 0] := by
  exact ⟨rfl, by decide⟩

/-- Claim C6 (amended): property access distributes over the canonical
enumeration — whenever the canonical union built from `[A, B]` re-enumerates
exactly `[A, B]`, `get_union_property` on it equals `into_union` of the two
resolved properties. -/
theorem claim_c6_amended :
    ∀ (a : Analyzer) (A B : Ty) (V : UnionType) (k : Nat),
      a.into_union [A, B] = some (Ty.union V) →
      UnionType.for_each V = [A, B] →
      a.get_union_property V k =
        a.into_union [a.get_property A k, a.get_property B k] := by
  intro a A B V k _h1 h2
  rw [a.get_union_property_eq, h2,
    a.into_union_eq_build [a.get_property A k, a.get_property B k] (by simp)]
  rfl

/-- Witness for claim C6 (amended) at `A = Object`, `B = Null`. -/
theorem claim_c6_witness :
    idAnalyzer.get_union_property
      { UnionType.default with object := true, null := true } 0 =
    idAnalyzer.into_union [idAnalyzer.get_property Ty.object 0,
      idAnalyzer.get_property Ty.null 0] :=
  claim_c6_amended idAnalyzer Ty.object Ty.null
    { UnionType.default with object := true, null := true } 0 (by decide) (by decide)

/-- Claim C7: `exec_while_statement` pushes an Indeterminate scope, evaluates
the loop test inside it and pops it, then pushes a Loop scope, executes the
body inside it and pops it; and a binding the body reassigns ends up, after
the loop, as the builder union of its value before the loop and its value
after one body execution (e.g. entry `{x : String}` with a body reassigning
`x` to `Number` yields `into_union([String, Number])` for `x`). -/
theorem claim_c7 :
    (∀ (a : Analyzer) (test body : FlowState → FlowState) (st : FlowState),
      a.exec_while_statement test body st =
        (a.pop_scope (test st.push_indeterminate_scope)).bind
          (fun st2 => a.pop_scope (body st2.push_loop_scope))) ∧
    (∀ (a : Analyzer) (x : String) (old nu : Ty), old ≠ nu →
      a.exec_while_statement id (fun st => st.assign x nu) ⟨[(x, old)], []⟩ =
        (a.into_union [old, nu]).map (fun m => ⟨[(x, m)], []⟩)) ∧
    (idAnalyzer.exec_while_statement id (fun st => st.assign "x" Ty.number)
        ⟨[("x", Ty.string)], []⟩ =
      some ⟨[("x",
        Ty.union { UnionType.default with string := .any, number := .any })], []⟩ ∧
     idAnalyzer.into_union [Ty.string, Ty.number] =
      some (Ty.union { UnionType.default with string := .any, number := .any })) := by
  refine ⟨fun a test body st => rfl, fun a x old nu hne => ?_, by decide, by decide⟩
  unfold Analyzer.exec_while_statement FlowState.push_indeterminate_scope
    FlowState.push_loop_scope Analyzer.pop_scope FlowState.assign
    Analyzer.merge_uncertain
  simp only [id_eq]
  cases h : a.into_union [old, nu] <;>
    simp [List.mapM.loop, List.lookup, hne, h]

/-- Witness for claim C7 at the entry state `{x : String}` with a body
reassigning `x` to `Number`. -/
theorem claim_c7_witness :
    idAnalyzer.exec_while_statement id (fun st => st.assign "x" Ty.number)
        ⟨[("x", Ty.string)], []⟩ =
      (idAnalyzer.into_union [Ty.string, Ty.number]).map
        (fun m => ⟨[("x", m)], []⟩) :=
  claim_c7.2.1 idAnalyzer "x" Ty.string Ty.number (by decide)
